import Mathlib

/-!
Verification of the core event scheduler in Source/Core/Core/CoreTiming.cpp
(Dolphin-MMJR2).  The data model and every operation below is a shallow
embedding of that file: `Event`, the `operator>` ordering, the
std heap calls (push_heap, pop_heap, make_heap) over `event_queue`,
`ScheduleEvent`, `MoveEvents`, `RemoveEvent`, `RemoveAllEvents`,
`ForceExceptionCheck`, `Advance`, `AdjustEventQueueTimes`, `GetTicks`,
`Idle`, `RegisterEvent` and the load half of `DoState`.

Machine integers: deadlines are s64 and sequence tags u64; the spec states
(section 7.4) that numeric overflow is deliberately unguarded, so cycle
arithmetic is embedded over Int and Nat.  The C++ s64 division in
AdjustEventQueueTimes truncates toward zero and is embedded as Int.tdiv.
The float overclock conversions DowncountToCycles and CyclesToDowncount are
abstracted as explicit Int-valued function parameters d2c and c2d, frozen
per slice exactly as the code freezes last_oc_factor.
-/

/-- Event as in CoreTiming.cpp: deadline (`time`, s64), insertion tag
(`fifo_order`, u64), opaque `userdata`, and the event type.  The type handle
is an `EventType*` into a name-keyed node-stable map, so pointer identity
coincides with the unique registered name; it is embedded as that name. -/
structure Event where
  time : Int
  fifo_order : Nat
  userdata : Nat
  type : String
deriving DecidableEq, Repr

instance : Inhabited Event := ⟨⟨0, 0, 0, ""⟩⟩

/-- The comparison `operator>` of CoreTiming.cpp line 44:
`std::tie(left.time, left.fifo_order) > std::tie(right.time, right.fifo_order)`,
the lexicographic order used through std::greater by every heap call. -/
def eventGT (a b : Event) : Bool :=
  decide (b.time < a.time) || (decide (a.time = b.time) && decide (b.fifo_order < a.fifo_order))

/-- Non-strict companion of `eventGT`: `a` may sit above `b` in the min-heap. -/
def eventLE (a b : Event) : Prop := eventGT a b = false

instance : DecidablePred fun p : Event × Event => eventLE p.1 p.2 := by
  intro p; unfold eventLE; infer_instance

instance (a b : Event) : Decidable (eventLE a b) := by
  unfold eventLE; infer_instance

theorem eventLE_iff {a b : Event} :
    eventLE a b ↔ a.time < b.time ∨ (a.time = b.time ∧ a.fifo_order ≤ b.fifo_order) := by
  simp only [eventLE, eventGT, Bool.or_eq_false_iff, Bool.and_eq_false_iff,
    decide_eq_false_iff_not, not_lt]
  omega

theorem eventGT_iff {a b : Event} :
    eventGT a b = true ↔ b.time < a.time ∨ (a.time = b.time ∧ b.fifo_order < a.fifo_order) := by
  simp [eventGT]

theorem eventLE_refl (a : Event) : eventLE a a := by
  rw [eventLE_iff]; omega

theorem eventLE_trans {a b c : Event} (h1 : eventLE a b) (h2 : eventLE b c) : eventLE a c := by
  rw [eventLE_iff] at h1 h2 ⊢; omega

theorem eventLE_of_gt {a b : Event} (h : eventGT a b = true) : eventLE b a := by
  rw [eventGT_iff] at h; rw [eventLE_iff]; omega

theorem eventLE_of_not_gt {a b : Event} (h : ¬ eventGT a b = true) : eventLE a b := by
  simpa [eventLE] using h

theorem eventLE_of_gt_of_le {a b c : Event} (h1 : eventGT a b = true) (h2 : eventLE a c) :
    eventLE b c := by
  rw [eventGT_iff] at h1; rw [eventLE_iff] at h2 ⊢; omega

theorem eventLE_time {a b : Event} (h : eventLE a b) : a.time ≤ b.time := by
  rw [eventLE_iff] at h; omega

/-- Total access into the queue array, with the `Inhabited` default out of
range; all heap reasoning goes through it. -/
def getE (q : Array Event) (i : Nat) : Event := q.getD i default

theorem getE_eq {q : Array Event} {i : Nat} (h : i < q.size) : getE q i = q[i] := by
  simp [getE, Array.getD, h]

theorem getE_get {q : Array Event} (i : Fin q.size) : q.get i = getE q i.val := by
  simp [getE, Array.getD, i.isLt, Array.get_eq_getElem]

/-- Index of the parent of heap slot `c` in the implicit binary tree used by
the std heap algorithms. -/
def heapParent (c : Nat) : Nat := (c - 1) / 2

/-- Region form of the min-heap invariant (under the `operator>` order used
with std::greater): every edge whose parent index is at least `start` is
ordered.  `HeapFrom q 0` is the full heap invariant of `event_queue`. -/
def HeapFrom (q : Array Event) (start : Nat) : Prop :=
  ∀ c, c < q.size → 0 < c → start ≤ heapParent c → eventLE (getE q (heapParent c)) (getE q c)

/-- Min-heap invariant of the event queue, as maintained by every public
operation of CoreTiming.cpp. -/
def IsHeap (q : Array Event) : Prop := HeapFrom q 0

instance (q : Array Event) (s : Nat) : Decidable (HeapFrom q s) := by
  unfold HeapFrom; infer_instance

instance (q : Array Event) : Decidable (IsHeap q) := by
  unfold IsHeap; infer_instance

theorem heapParent_lt {c : Nat} (h : 0 < c) : heapParent c < c := by
  unfold heapParent; omega

theorem heapParent_children {c h : Nat} (hc : 0 < c) (hp : heapParent c = h) :
    c = 2 * h + 1 ∨ c = 2 * h + 2 := by
  unfold heapParent at hp; omega

/-- Sift-up loop of std::push_heap, with explicit structural fuel so that the
definition computes by kernel reduction; `fuel = i + 1` always suffices. -/
def siftUpFuel : Nat → Array Event → Nat → Array Event
  | 0, q, _ => q
  | fuel + 1, q, i =>
    if hi : i < q.size then
      if _h0 : i = 0 then q
      else
        if hp : (i - 1) / 2 < q.size then
          if eventGT (q.get ⟨(i - 1) / 2, hp⟩) (q.get ⟨i, hi⟩) then
            siftUpFuel fuel (q.swap ⟨(i - 1) / 2, hp⟩ ⟨i, hi⟩) ((i - 1) / 2)
          else q
        else q
    else q

/-- Sift-down loop of std::pop_heap and std::make_heap (smaller child is
promoted; the left child wins ties), with structural fuel; `fuel = q.size`
always suffices. -/
def siftDownFuel : Nat → Array Event → Nat → Array Event
  | 0, q, _ => q
  | fuel + 1, q, hole =>
    if hl : 2 * hole + 1 < q.size then
      if hh : hole < q.size then
        if hr : 2 * hole + 2 < q.size then
          if eventGT (q.get ⟨2 * hole + 1, hl⟩) (q.get ⟨2 * hole + 2, hr⟩) then
            if eventGT (q.get ⟨hole, hh⟩) (q.get ⟨2 * hole + 2, hr⟩) then
              siftDownFuel fuel (q.swap ⟨hole, hh⟩ ⟨2 * hole + 2, hr⟩) (2 * hole + 2)
            else q
          else
            if eventGT (q.get ⟨hole, hh⟩) (q.get ⟨2 * hole + 1, hl⟩) then
              siftDownFuel fuel (q.swap ⟨hole, hh⟩ ⟨2 * hole + 1, hl⟩) (2 * hole + 1)
            else q
        else
          if eventGT (q.get ⟨hole, hh⟩) (q.get ⟨2 * hole + 1, hl⟩) then
            siftDownFuel fuel (q.swap ⟨hole, hh⟩ ⟨2 * hole + 1, hl⟩) (2 * hole + 1)
          else q
      else q
    else q

/-- CoreTiming.cpp line 305: `emplace_back` followed by `std::push_heap`. -/
def heapPush (q : Array Event) (e : Event) : Array Event :=
  siftUpFuel (q.size + 1) (q.push e) q.size

/-- Queue update of the fire loop, lines 389 to 391: `std::pop_heap` moves the
minimum to the back, `pop_back` drops it, and the previous back element is
sifted down from the root. -/
def popHeap (q : Array Event) : Array Event :=
  if 0 < q.size then siftDownFuel q.size ((q.setD 0 (getE q (q.size - 1))).pop) 0 else q

/-- Floyd heapify pass of std::make_heap: sift down at holes
`k - 1, k - 2, ..., 0`. -/
def makeHeapAux (q : Array Event) : Nat → Array Event
  | 0 => q
  | k + 1 => makeHeapAux (siftDownFuel q.size q k) k

/-- Heap rebuild, `std::make_heap(event_queue.begin(), event_queue.end(),
std::greater<Event>())` as called by RemoveEvent and DoState. -/
def makeHeap (q : Array Event) : Array Event := makeHeapAux q q.size

theorem getE_swap (q : Array Event) (i j : Fin q.size) (k : Nat) :
    getE (q.swap i j) k =
      if k = i.val then getE q j.val else if k = j.val then getE q i.val else getE q k := by
  by_cases hk : k < q.size
  · have hk2 : k < (q.swap i j).size := by rw [Array.size_swap]; exact hk
    rw [getE_eq hk2, Array.getElem_swap]
    split
    · rw [getE_eq j.isLt]; rfl
    · split
      · rw [getE_eq i.isLt]; rfl
      · rw [getE_eq hk]
  · have h1 : k ≠ i.val := by have := i.isLt; omega
    have h2 : k ≠ j.val := by have := j.isLt; omega
    rw [if_neg h1, if_neg h2]
    have hk2 : ¬ k < (q.swap i j).size := by rw [Array.size_swap]; exact hk
    simp [getE, Array.getD, hk, hk2]

theorem swap_perm (q : Array Event) (i j : Fin q.size) :
    (q.swap i j).toList.Perm q.toList := by
  rw [List.perm_iff_count]
  intro a
  rw [Array.toList_swap]
  have hi : i.val < q.toList.length := by rw [Array.length_toList]; exact i.isLt
  have hj : j.val < (q.toList.set i.val (q.get j)).length := by
    rw [List.length_set, Array.length_toList]; exact j.isLt
  rw [List.count_set (q.get i) a _ _ hj, List.count_set (q.get j) a _ _ hi]
  have hgi : q.toList[i.val] = q.get i := by
    rw [Array.get_eq_getElem, Array.getElem_eq_getElem_toList]
  have hjq : j.val < q.toList.length := by rw [Array.length_toList]; exact j.isLt
  have hgj : q.toList[j.val] = q.get j := by
    rw [Array.get_eq_getElem, Array.getElem_eq_getElem_toList]
  have hcount : (q.get i == a) = true → 1 ≤ List.count a q.toList := by
    intro h
    have : a ∈ q.toList := by
      rw [← eq_of_beq h, ← hgi]
      exact List.getElem_mem hi
    exact List.count_pos_iff.mpr this
  rw [List.getElem_set]
  simp only [beq_iff_eq]
  by_cases hij : i.val = j.val
  · have hvij : q.get j = q.get i := by
      rcases i with ⟨iv, hiv⟩; rcases j with ⟨jv, hjv⟩
      simp only at hij
      subst hij; rfl
    rw [if_pos hij, hvij, hgi]
    by_cases hia : q.get i = a
    · have hc : 1 ≤ List.count a q.toList := hcount (beq_iff_eq.mpr hia)
      rw [Array.get_eq_getElem] at hia
      simp [hia]
      omega
    · rw [Array.get_eq_getElem] at hia
      simp [hia]
  · rw [if_neg hij, hgj, hgi]
    by_cases hia : q.get i = a
    · have hc : 1 ≤ List.count a q.toList := hcount (beq_iff_eq.mpr hia)
      rw [Array.get_eq_getElem] at hia
      by_cases hja : q.get j = a <;> rw [Array.get_eq_getElem] at hja <;>
        simp [hia, hja] <;> omega
    · rw [Array.get_eq_getElem] at hia
      by_cases hja : q.get j = a <;> rw [Array.get_eq_getElem] at hja <;>
        simp [hia, hja]

/-- Correctness of the push_heap sift-up loop: if every heap edge except the
one into the hole `i` is ordered, and the children of the hole fit under the
parent of the hole, the loop restores the full heap invariant and permutes
the array contents. -/
theorem siftUpFuel_spec : ∀ (fuel : Nat) (q : Array Event) (i : Nat),
    i < fuel → i < q.size →
    (∀ c, c < q.size → 0 < c → c ≠ i → eventLE (getE q (heapParent c)) (getE q c)) →
    (∀ c, c < q.size → 0 < c → heapParent c = i → 0 < i →
      eventLE (getE q (heapParent i)) (getE q c)) →
    IsHeap (siftUpFuel fuel q i) ∧ (siftUpFuel fuel q i).toList.Perm q.toList := by
  intro fuel
  induction fuel with
  | zero => intro q i hf; omega
  | succ fuel ih =>
    intro q i hf hi H1 H2
    rw [siftUpFuel, dif_pos hi]
    by_cases h0 : i = 0
    · rw [dif_pos h0]
      refine ⟨fun c hc hcpos _ => H1 c hc hcpos (by omega), List.Perm.refl _⟩
    · rw [dif_neg h0]
      have hp : (i - 1) / 2 < q.size := by omega
      have hpi : (i - 1) / 2 < i := by omega
      have hpar : heapParent i = (i - 1) / 2 := rfl
      rw [dif_pos hp]
      by_cases hgt : eventGT (q.get ⟨(i - 1) / 2, hp⟩) (q.get ⟨i, hi⟩) = true
      · rw [if_pos hgt]
        rw [getE_get, getE_get] at hgt
        have hsz : (q.swap ⟨(i - 1) / 2, hp⟩ ⟨i, hi⟩).size = q.size := Array.size_swap ..
        have e_hole : getE (q.swap ⟨(i - 1) / 2, hp⟩ ⟨i, hi⟩) ((i - 1) / 2) = getE q i := by
          simpa using getE_swap q ⟨(i - 1) / 2, hp⟩ ⟨i, hi⟩ ((i - 1) / 2)
        have e_i : getE (q.swap ⟨(i - 1) / 2, hp⟩ ⟨i, hi⟩) i = getE q ((i - 1) / 2) := by
          have hne : i ≠ (i - 1) / 2 := by omega
          simpa [hne] using getE_swap q ⟨(i - 1) / 2, hp⟩ ⟨i, hi⟩ i
        have e_other : ∀ k, k ≠ (i - 1) / 2 → k ≠ i →
            getE (q.swap ⟨(i - 1) / 2, hp⟩ ⟨i, hi⟩) k = getE q k := by
          intro k h1 h2
          simpa [h1, h2] using getE_swap q ⟨(i - 1) / 2, hp⟩ ⟨i, hi⟩ k
        have hh1 : ∀ c, c < (q.swap ⟨(i - 1) / 2, hp⟩ ⟨i, hi⟩).size → 0 < c →
            c ≠ (i - 1) / 2 →
            eventLE (getE (q.swap ⟨(i - 1) / 2, hp⟩ ⟨i, hi⟩) (heapParent c))
              (getE (q.swap ⟨(i - 1) / 2, hp⟩ ⟨i, hi⟩) c) := by
          intro c hc hcpos hcp
          rw [hsz] at hc
          by_cases hci : c = i
          · subst hci
            rw [hpar, e_hole, e_i]
            exact eventLE_of_gt hgt
          · by_cases hpc : heapParent c = (i - 1) / 2
            · rw [hpc, e_hole, e_other c hcp hci]
              have h1 := H1 c hc hcpos hci
              rw [hpc] at h1
              exact eventLE_of_gt_of_le hgt h1
            · by_cases hpci : heapParent c = i
              · rw [hpci, e_i, e_other c hcp hci]
                have h2 := H2 c hc hcpos hpci (by omega)
                rwa [hpar] at h2
              · rw [e_other (heapParent c) hpc hpci, e_other c hcp hci]
                exact H1 c hc hcpos hci
        have hh2 : ∀ c, c < (q.swap ⟨(i - 1) / 2, hp⟩ ⟨i, hi⟩).size → 0 < c →
            heapParent c = (i - 1) / 2 → 0 < (i - 1) / 2 →
            eventLE (getE (q.swap ⟨(i - 1) / 2, hp⟩ ⟨i, hi⟩) (heapParent ((i - 1) / 2)))
              (getE (q.swap ⟨(i - 1) / 2, hp⟩ ⟨i, hi⟩) c) := by
          intro c hc hcpos hpc hppos
          rw [hsz] at hc
          have hplt : heapParent ((i - 1) / 2) < (i - 1) / 2 := heapParent_lt hppos
          have e_pp : getE (q.swap ⟨(i - 1) / 2, hp⟩ ⟨i, hi⟩) (heapParent ((i - 1) / 2)) =
              getE q (heapParent ((i - 1) / 2)) :=
            e_other _ (by omega) (by omega)
          rw [e_pp]
          have hbase : eventLE (getE q (heapParent ((i - 1) / 2))) (getE q ((i - 1) / 2)) := by
            have := H1 ((i - 1) / 2) hp hppos (by omega)
            exact this
          by_cases hci : c = i
          · subst hci
            rw [e_i]
            exact hbase
          · have hcne : c ≠ (i - 1) / 2 := by
              have := heapParent_lt hcpos
              omega
            rw [e_other c hcne hci]
            have h1 := H1 c hc hcpos hci
            rw [hpc] at h1
            exact eventLE_trans hbase h1
        obtain ⟨hH, hP⟩ := ih (q.swap ⟨(i - 1) / 2, hp⟩ ⟨i, hi⟩) ((i - 1) / 2)
          (by omega) (by omega) hh1 hh2
        exact ⟨hH, hP.trans (swap_perm q ⟨(i - 1) / 2, hp⟩ ⟨i, hi⟩)⟩
      · rw [if_neg hgt]
        refine ⟨fun c hc hcpos _ => ?_, List.Perm.refl _⟩
        by_cases hci : c = i
        · subst hci
          rw [hpar]
          have := eventLE_of_not_gt hgt
          rwa [getE_get, getE_get] at this
        · exact H1 c hc hcpos hci

/-- One swap step of the sift-down loop preserves its two invariants: all
edges outside the hole are ordered in the active region, and children of the
hole fit below the parent of the hole. -/
theorem siftDown_swap_inv (q : Array Event) (hole m start : Nat)
    (hh : hole < q.size) (hm : m < q.size)
    (hchild : heapParent m = hole) (hmpos : 0 < m) (hstart : start ≤ hole)
    (hmin : ∀ c, c < q.size → 0 < c → heapParent c = hole → eventLE (getE q m) (getE q c))
    (hgt : eventGT (getE q hole) (getE q m) = true)
    (H1 : ∀ c, c < q.size → 0 < c → start ≤ heapParent c → heapParent c ≠ hole →
      eventLE (getE q (heapParent c)) (getE q c))
    (H2 : start < hole → ∀ c, c < q.size → 0 < c → heapParent c = hole →
      eventLE (getE q (heapParent hole)) (getE q c)) :
    (∀ c, c < (q.swap ⟨hole, hh⟩ ⟨m, hm⟩).size → 0 < c → start ≤ heapParent c →
      heapParent c ≠ m →
      eventLE (getE (q.swap ⟨hole, hh⟩ ⟨m, hm⟩) (heapParent c))
        (getE (q.swap ⟨hole, hh⟩ ⟨m, hm⟩) c)) ∧
    (start < m → ∀ c, c < (q.swap ⟨hole, hh⟩ ⟨m, hm⟩).size → 0 < c → heapParent c = m →
      eventLE (getE (q.swap ⟨hole, hh⟩ ⟨m, hm⟩) (heapParent m))
        (getE (q.swap ⟨hole, hh⟩ ⟨m, hm⟩) c)) := by
  have hhm : hole < m := hchild ▸ heapParent_lt hmpos
  have hsz : (q.swap ⟨hole, hh⟩ ⟨m, hm⟩).size = q.size := Array.size_swap ..
  have e_hole : getE (q.swap ⟨hole, hh⟩ ⟨m, hm⟩) hole = getE q m := by
    simpa using getE_swap q ⟨hole, hh⟩ ⟨m, hm⟩ hole
  have e_m : getE (q.swap ⟨hole, hh⟩ ⟨m, hm⟩) m = getE q hole := by
    have hne : m ≠ hole := by omega
    simpa [hne] using getE_swap q ⟨hole, hh⟩ ⟨m, hm⟩ m
  have e_other : ∀ k, k ≠ hole → k ≠ m →
      getE (q.swap ⟨hole, hh⟩ ⟨m, hm⟩) k = getE q k := by
    intro k h1 h2
    simpa [h1, h2] using getE_swap q ⟨hole, hh⟩ ⟨m, hm⟩ k
  constructor
  · intro c hc hcpos hcstart hcm
    rw [hsz] at hc
    by_cases hpc : heapParent c = hole
    · by_cases hcmeq : c = m
      · subst hcmeq
        rw [hchild, e_hole, e_m]
        exact eventLE_of_gt hgt
      · have hchole : c ≠ hole := by
          have := heapParent_lt hcpos
          omega
        rw [hpc, e_hole, e_other c hchole hcmeq]
        exact hmin c hc hcpos hpc
    · by_cases hchole : c = hole
      · subst hchole
        have hplt : heapParent c < c := heapParent_lt hcpos
        rw [e_other (heapParent c) (by omega) hcm, e_hole]
        exact H2 (by omega) m hm hmpos hchild
      · have hcmne : c ≠ m := fun hcm2 => hpc (hcm2 ▸ hchild)
        rw [e_other c hchole hcmne, e_other (heapParent c) hpc hcm]
        exact H1 c hc hcpos hcstart hpc
  · intro hstartm c hc hcpos hpcm
    rw [hsz] at hc
    have hcm : m < c := hpcm ▸ heapParent_lt hcpos
    rw [hchild, e_hole, e_other c (by omega) (by omega)]
    have h1 := H1 c hc hcpos (by omega) (by omega)
    rwa [hpcm] at h1

/-- Correctness of the sift-down loop of pop_heap and make_heap: if every
edge with parent index at least `start` other than the edges out of the hole
is ordered, and the children of the hole fit below the parent of the hole,
the loop orders every edge with parent index at least `start` and permutes
the array contents. -/
theorem siftDownFuel_spec : ∀ (fuel : Nat) (q : Array Event) (hole start : Nat),
    q.size ≤ fuel + hole → start ≤ hole →
    (∀ c, c < q.size → 0 < c → start ≤ heapParent c → heapParent c ≠ hole →
      eventLE (getE q (heapParent c)) (getE q c)) →
    (start < hole → ∀ c, c < q.size → 0 < c → heapParent c = hole →
      eventLE (getE q (heapParent hole)) (getE q c)) →
    HeapFrom (siftDownFuel fuel q hole) start ∧
      (siftDownFuel fuel q hole).toList.Perm q.toList := by
  intro fuel
  induction fuel with
  | zero =>
    intro q hole start hbudget hstart H1 H2
    show HeapFrom q start ∧ q.toList.Perm q.toList
    refine ⟨fun c hc hcpos hcstart => ?_, List.Perm.refl _⟩
    by_cases hpc : heapParent c = hole
    · rcases heapParent_children hcpos hpc with h | h <;> omega
    · exact H1 c hc hcpos hcstart hpc
  | succ fuel ih =>
    intro q hole start hbudget hstart H1 H2
    have hcl : heapParent (2 * hole + 1) = hole := by unfold heapParent; omega
    have hcr : heapParent (2 * hole + 2) = hole := by unfold heapParent; omega
    rw [siftDownFuel]
    by_cases hl : 2 * hole + 1 < q.size
    · rw [dif_pos hl]
      have hh : hole < q.size := by omega
      rw [dif_pos hh]
      by_cases hr : 2 * hole + 2 < q.size
      · rw [dif_pos hr]
        by_cases gtlr : eventGT (q.get ⟨2 * hole + 1, hl⟩) (q.get ⟨2 * hole + 2, hr⟩) = true
        · rw [if_pos gtlr]
          rw [getE_get, getE_get] at gtlr
          by_cases gthm : eventGT (q.get ⟨hole, hh⟩) (q.get ⟨2 * hole + 2, hr⟩) = true
          · rw [if_pos gthm]
            rw [getE_get, getE_get] at gthm
            have hmin : ∀ c, c < q.size → 0 < c → heapParent c = hole →
                eventLE (getE q (2 * hole + 2)) (getE q c) := by
              intro c hc hcpos hpc
              rcases heapParent_children hcpos hpc with h | h
              · subst h; exact eventLE_of_gt gtlr
              · subst h; exact eventLE_refl _
            obtain ⟨K1, K2⟩ := siftDown_swap_inv q hole (2 * hole + 2) start hh hr
              hcr (by omega) hstart hmin gthm H1 H2
            obtain ⟨hH, hP⟩ := ih (q.swap ⟨hole, hh⟩ ⟨2 * hole + 2, hr⟩) (2 * hole + 2)
              start (by rw [Array.size_swap]; omega) (by omega) K1 K2
            exact ⟨hH, hP.trans (swap_perm q ⟨hole, hh⟩ ⟨2 * hole + 2, hr⟩)⟩
          · rw [if_neg gthm]
            rw [getE_get, getE_get] at gthm
            refine ⟨fun c hc hcpos hcstart => ?_, List.Perm.refl _⟩
            by_cases hpc : heapParent c = hole
            · rcases heapParent_children hcpos hpc with h | h
              · subst h
                rw [hcl]
                exact eventLE_trans (eventLE_of_not_gt gthm) (eventLE_of_gt gtlr)
              · subst h
                rw [hcr]
                exact eventLE_of_not_gt gthm
            · exact H1 c hc hcpos hcstart hpc
        · rw [if_neg gtlr]
          rw [getE_get, getE_get] at gtlr
          by_cases gthl : eventGT (q.get ⟨hole, hh⟩) (q.get ⟨2 * hole + 1, hl⟩) = true
          · rw [if_pos gthl]
            rw [getE_get, getE_get] at gthl
            have hmin : ∀ c, c < q.size → 0 < c → heapParent c = hole →
                eventLE (getE q (2 * hole + 1)) (getE q c) := by
              intro c hc hcpos hpc
              rcases heapParent_children hcpos hpc with h | h
              · subst h; exact eventLE_refl _
              · subst h; exact eventLE_of_not_gt gtlr
            obtain ⟨K1, K2⟩ := siftDown_swap_inv q hole (2 * hole + 1) start hh hl
              hcl (by omega) hstart hmin gthl H1 H2
            obtain ⟨hH, hP⟩ := ih (q.swap ⟨hole, hh⟩ ⟨2 * hole + 1, hl⟩) (2 * hole + 1)
              start (by rw [Array.size_swap]; omega) (by omega) K1 K2
            exact ⟨hH, hP.trans (swap_perm q ⟨hole, hh⟩ ⟨2 * hole + 1, hl⟩)⟩
          · rw [if_neg gthl]
            rw [getE_get, getE_get] at gthl
            refine ⟨fun c hc hcpos hcstart => ?_, List.Perm.refl _⟩
            by_cases hpc : heapParent c = hole
            · rcases heapParent_children hcpos hpc with h | h
              · subst h
                rw [hcl]
                exact eventLE_of_not_gt gthl
              · subst h
                rw [hcr]
                exact eventLE_trans (eventLE_of_not_gt gthl) (eventLE_of_not_gt gtlr)
            · exact H1 c hc hcpos hcstart hpc
      · rw [dif_neg hr]
        by_cases gthl : eventGT (q.get ⟨hole, hh⟩) (q.get ⟨2 * hole + 1, hl⟩) = true
        · rw [if_pos gthl]
          rw [getE_get, getE_get] at gthl
          have hmin : ∀ c, c < q.size → 0 < c → heapParent c = hole →
              eventLE (getE q (2 * hole + 1)) (getE q c) := by
            intro c hc hcpos hpc
            rcases heapParent_children hcpos hpc with h | h
            · subst h; exact eventLE_refl _
            · omega
          obtain ⟨K1, K2⟩ := siftDown_swap_inv q hole (2 * hole + 1) start hh hl
            hcl (by omega) hstart hmin gthl H1 H2
          obtain ⟨hH, hP⟩ := ih (q.swap ⟨hole, hh⟩ ⟨2 * hole + 1, hl⟩) (2 * hole + 1)
            start (by rw [Array.size_swap]; omega) (by omega) K1 K2
          exact ⟨hH, hP.trans (swap_perm q ⟨hole, hh⟩ ⟨2 * hole + 1, hl⟩)⟩
        · rw [if_neg gthl]
          rw [getE_get, getE_get] at gthl
          refine ⟨fun c hc hcpos hcstart => ?_, List.Perm.refl _⟩
          by_cases hpc : heapParent c = hole
          · rcases heapParent_children hcpos hpc with h | h
            · subst h
              rw [hcl]
              exact eventLE_of_not_gt gthl
            · omega
          · exact H1 c hc hcpos hcstart hpc
    · rw [dif_neg hl]
      refine ⟨fun c hc hcpos hcstart => ?_, List.Perm.refl _⟩
      by_cases hpc : heapParent c = hole
      · rcases heapParent_children hcpos hpc with h | h <;> omega
      · exact H1 c hc hcpos hcstart hpc

/-- Generic root-minimality: in an array whose heap edges are all ordered by
a reflexive transitive relation, the root is below every element. -/
theorem heapRootMin (q : Array Event) (R : Event → Event → Prop)
    (hrefl : ∀ a, R a a) (htrans : ∀ {a b c}, R a b → R b c → R a c)
    (hheap : ∀ c, c < q.size → 0 < c → R (getE q (heapParent c)) (getE q c)) :
    ∀ j, j < q.size → R (getE q 0) (getE q j) := by
  intro j
  induction j using Nat.strong_induction_on with
  | _ j ih =>
    intro hj
    by_cases h0 : j = 0
    · subst h0; exact hrefl _
    · have hpar := heapParent_lt (show 0 < j by omega)
      exact htrans (ih (heapParent j) hpar (by omega)) (hheap j hj (by omega))

theorem isHeap_root_min {q : Array Event} (h : IsHeap q) :
    ∀ j, j < q.size → eventLE (getE q 0) (getE q j) :=
  heapRootMin q eventLE eventLE_refl (fun h1 h2 => eventLE_trans h1 h2)
    (fun c hc hcpos => h c hc hcpos (Nat.zero_le _))

theorem getE_push_lt {q : Array Event} {e : Event} {k : Nat} (h : k < q.size) :
    getE (q.push e) k = getE q k := by
  have h2 : k < (q.push e).size := by rw [Array.size_push]; omega
  rw [getE_eq h2, getE_eq h, Array.getElem_push, dif_pos h]

theorem heapPush_spec {q : Array Event} (e : Event) (h : IsHeap q) :
    IsHeap (heapPush q e) ∧ (heapPush q e).toList.Perm (q.toList ++ [e]) := by
  unfold heapPush
  have hsz : q.size < (q.push e).size := by rw [Array.size_push]; omega
  obtain ⟨hH, hP⟩ := siftUpFuel_spec (q.size + 1) (q.push e) q.size (by omega) hsz
    (by
      intro c hc hcpos hci
      rw [Array.size_push] at hc
      have hclt : c < q.size := by omega
      have hplt : heapParent c < q.size := by
        have := heapParent_lt hcpos
        omega
      rw [getE_push_lt hclt, getE_push_lt hplt]
      exact h c hclt hcpos (Nat.zero_le _))
    (by
      intro c hc hcpos hpc _
      rw [Array.size_push] at hc
      rcases heapParent_children hcpos hpc with h2 | h2 <;> omega)
  refine ⟨hH, hP.trans ?_⟩
  rw [Array.push_toList]

theorem makeHeapAux_spec : ∀ (k : Nat) (q : Array Event), HeapFrom q k →
    IsHeap (makeHeapAux q k) ∧ (makeHeapAux q k).toList.Perm q.toList := by
  intro k
  induction k with
  | zero =>
    intro q hq
    exact ⟨hq, List.Perm.refl _⟩
  | succ k ih =>
    intro q hq
    show IsHeap (makeHeapAux (siftDownFuel q.size q k) k) ∧
      (makeHeapAux (siftDownFuel q.size q k) k).toList.Perm q.toList
    obtain ⟨hH, hP⟩ := siftDownFuel_spec q.size q k k (by omega) (le_refl _)
      (fun c hc hcpos hk hne => hq c hc hcpos (by omega))
      (fun hlt => absurd hlt (lt_irrefl _))
    obtain ⟨hH2, hP2⟩ := ih (siftDownFuel q.size q k) hH
    exact ⟨hH2, hP2.trans hP⟩

/-- The RemoveEvent and DoState rebuild always restores the heap invariant
and permutes the contents. -/
theorem makeHeap_spec (q : Array Event) :
    IsHeap (makeHeap q) ∧ (makeHeap q).toList.Perm q.toList := by
  unfold makeHeap
  exact makeHeapAux_spec q.size q
    (fun c hc hcpos hk => by
      have := heapParent_lt hcpos
      omega)

/-- Removing the head after writing the last element over it permutes away
exactly one copy of the head. -/
theorem cons_set_dropLast_perm (l : List Event) (h0 : 0 < l.length) (v : Event)
    (hv : v = l.getLast (by intro hc; subst hc; simp at h0)) :
    (l[0] :: ((l.set 0 v).dropLast)).Perm l := by
  cases l with
  | nil => simp at h0
  | cons a t =>
    rw [List.getElem_cons_zero, List.set_cons_zero]
    cases t with
    | nil =>
      have hva : v = a := by simpa using hv
      subst hva
      simp
    | cons b t2 =>
      have hne : (b :: t2) ≠ [] := by simp
      rw [List.dropLast_cons₂]
      refine List.Perm.cons a ?_
      have hv2 : v = (b :: t2).getLast hne := by
        rw [hv, List.getLast_cons hne]
      refine List.Perm.trans (List.perm_append_singleton v _).symm ?_
      rw [hv2, List.dropLast_append_getLast hne]

theorem setD_zero_eq (q : Array Event) (v : Event) (h : 0 < q.size) :
    q.setD 0 v = q.set ⟨0, h⟩ v := by
  unfold Array.setD
  rw [dif_pos h]

/-- Correctness of the pop step of the fire loop: the root is removed, the
heap invariant is restored, and nothing else changes. -/
theorem popHeap_spec {q : Array Event} (h : IsHeap q) (hpos : 0 < q.size) :
    IsHeap (popHeap q) ∧ ((getE q 0) :: (popHeap q).toList).Perm q.toList := by
  unfold popHeap
  rw [if_pos hpos]
  have hssz : (q.setD 0 (getE q (q.size - 1))).size = q.size := by
    rw [setD_zero_eq q _ hpos, Array.size_set]
  have hsz2 : ((q.setD 0 (getE q (q.size - 1))).pop).size = q.size - 1 := by
    rw [Array.size_pop, hssz]
  have hget2 : ∀ k, 0 < k → k < q.size - 1 →
      getE ((q.setD 0 (getE q (q.size - 1))).pop) k = getE q k := by
    intro k hk1 hk2
    have hka : k < ((q.setD 0 (getE q (q.size - 1))).pop).size := by
      rw [hsz2]; omega
    have hkb : k < q.size := by omega
    conv_rhs => rw [getE_eq hkb]
    rw [getE_eq hka, Array.getElem_pop]
    simp only [setD_zero_eq q (getE q (q.size - 1)) hpos, Array.getElem_set]
    simp only [if_neg (show (0 : Nat) ≠ k by omega)]
  obtain ⟨hH, hP⟩ := siftDownFuel_spec q.size ((q.setD 0 (getE q (q.size - 1))).pop) 0 0
    (by rw [hsz2]; omega) (le_refl _)
    (by
      intro c hc hcpos h0 hne
      rw [hsz2] at hc
      have hppos : 0 < heapParent c := by omega
      rw [hget2 c hcpos hc, hget2 (heapParent c) hppos (by have := heapParent_lt hcpos; omega)]
      exact h c (by omega) hcpos (Nat.zero_le _))
    (fun hlt => absurd hlt (lt_irrefl _))
  refine ⟨hH, ?_⟩
  refine List.Perm.trans (List.Perm.cons _ hP) ?_
  rw [setD_zero_eq q _ hpos, Array.toList_pop, Array.toList_set]
  have hlen : 0 < q.toList.length := by rw [Array.length_toList]; omega
  have hlne : q.toList ≠ [] := by
    intro hc
    rw [hc] at hlen
    simp at hlen
  have hhead : getE q 0 = q.toList[0] := by
    rw [getE_eq hpos]
    exact Array.getElem_eq_getElem_toList _
  have hv : getE q (q.size - 1) = q.toList.getLast hlne := by
    simp only [List.getLast_eq_getElem, Array.length_toList]
    rw [getE_eq (show q.size - 1 < q.size by omega)]
    exact Array.getElem_eq_getElem_toList _
  rw [hhead, hv]
  exact cons_set_dropLast_perm q.toList hlen _ rfl

/-- MAX_SLICE_LENGTH of CoreTiming.cpp line 53. -/
def MAX_SLICE_LENGTH : Int := 20000

/-- Scheduler state: the STATE_TO_SAVE block of CoreTimingState::Data plus
the CoreTiming globals and the CPU downcount register it drives.
`event_queue` is the min-heap, `event_fifo_id` the sequence counter,
`ts_queue` the cross-thread inbox in FIFO order. -/
structure SchedState where
  event_queue : Array Event
  event_fifo_id : Nat
  ts_queue : List Event
  global_timer : Int
  slice_length : Int
  downcount : Int
  is_global_timer_sane : Bool
  idled_cycles : Int
deriving DecidableEq, Repr

/-- GetTicks, lines 249 to 262: `global_timer`, plus mid-slice progress
`slice_length - DowncountToCycles(downcount)` when the timer is not sane.
The float conversion DowncountToCycles is the parameter `d2c`. -/
def GetTicks (d2c : Int → Int) (s : SchedState) : Int :=
  if s.is_global_timer_sane then s.global_timer
  else s.global_timer + (s.slice_length - d2c s.downcount)

/-- ForceExceptionCheck, lines 344 to 358: clamp the argument to zero and, if
the remaining cycles of the slice exceed it, shorten the slice and reprogram
the downcount. -/
def ForceExceptionCheck (d2c c2d : Int → Int) (s : SchedState) (cycles : Int) : SchedState :=
  if d2c s.downcount > max 0 cycles then
    { s with
      slice_length := s.slice_length - (d2c s.downcount - max 0 cycles),
      downcount := c2d (max 0 cycles) }
  else s

/-- ScheduleEvent, lines 276 to 321, after the origin tag has been resolved
against the current thread (the thread-identity assertion is a no-op in a
single-thread embedding).  CPU path: deadline from GetTicks, possible early
exception check, push with a fresh sequence number.  Non-CPU path: deadline
from the possibly stale `global_timer`, placeholder sequence 0, into the
inbox. -/
def ScheduleEvent (d2c c2d : Int → Int) (s : SchedState) (cycles_into_future : Int)
    (ty : String) (userdata : Nat) (from_cpu : Bool) : SchedState :=
  if from_cpu then
    let timeout := GetTicks d2c s + cycles_into_future
    let s1 := if s.is_global_timer_sane then s
      else ForceExceptionCheck d2c c2d s cycles_into_future
    { s1 with
      event_queue := heapPush s1.event_queue
        { time := timeout, fifo_order := s1.event_fifo_id, userdata := userdata, type := ty },
      event_fifo_id := s1.event_fifo_id + 1 }
  else
    { s with
      ts_queue := s.ts_queue ++
        [{ time := s.global_timer + cycles_into_future, fifo_order := 0,
           userdata := userdata, type := ty }] }

/-- Drain loop of MoveEvents, lines 360 to 369: pop the inbox in FIFO order,
assign the real sequence tag at drain time, push into the heap. -/
def moveLoop : List Event → SchedState → SchedState
  | [], s => s
  | ev :: rest, s =>
    moveLoop rest
      { s with
        event_queue := heapPush s.event_queue { ev with fifo_order := s.event_fifo_id },
        event_fifo_id := s.event_fifo_id + 1 }

/-- MoveEvents, lines 360 to 369. -/
def MoveEvents (s : SchedState) : SchedState := moveLoop s.ts_queue { s with ts_queue := [] }

/-- RemoveEvent, lines 323 to 336, on the queue array: `std::remove_if` keeps
the non-matching events in order; only when something was erased is the heap
rebuilt (`itr != event_queue.end()`). -/
def removeEventQueue (q : Array Event) (ty : String) : Array Event :=
  let kept := q.toList.filter (fun e => e.type != ty)
  if kept.length = q.size then q else makeHeap (Array.mk kept)

/-- RemoveEvent, lines 323 to 336. -/
def RemoveEvent (s : SchedState) (ty : String) : SchedState :=
  { s with event_queue := removeEventQueue s.event_queue ty }

/-- RemoveAllEvents, lines 338 to 342: drain the inbox, then RemoveEvent. -/
def RemoveAllEvents (s : SchedState) (ty : String) : SchedState :=
  RemoveEvent (MoveEvents s) ty

/-- Fire loop of Advance, lines 387 to 393, with the callbacks embedded as a
function from (type name, userdata, cycles late) to the list of reentrant
CPU-thread ScheduleEvent requests (delta, type, userdata) the callback makes.
Fuel makes the loop structural; the Bool reports whether the loop reached its
exit condition within the given fuel. -/
def fireLoop (cbs : String → Nat → Int → List (Int × String × Nat)) (d2c c2d : Int → Int) :
    Nat → SchedState → List Event → SchedState × List Event × Bool
  | 0, s, fired => (s, fired, false)
  | fuel + 1, s, fired =>
    if 0 < s.event_queue.size ∧ (getE s.event_queue 0).time ≤ s.global_timer then
      let evt := getE s.event_queue 0
      let s2 := { s with event_queue := popHeap s.event_queue }
      let s3 := (cbs evt.type evt.userdata (s.global_timer - evt.time)).foldl
        (fun st r => ScheduleEvent d2c c2d st r.1 r.2.1 r.2.2 true) s2
      fireLoop cbs d2c c2d fuel s3 (fired ++ [evt])
    else (s, fired, true)

/-- Tail of Advance after the fire loop, lines 395 to 404: clear the sane
flag, pick the next slice as the distance to the front deadline capped at
MAX_SLICE_LENGTH when events remain, and reprogram the downcount from the
chosen slice. -/
def advanceFinish (c2d : Int → Int) (r : SchedState) : SchedState :=
  if 0 < r.event_queue.size then
    { r with
      is_global_timer_sane := false,
      slice_length := min ((getE r.event_queue 0).time - r.global_timer) MAX_SLICE_LENGTH,
      downcount := c2d (min ((getE r.event_queue 0).time - r.global_timer) MAX_SLICE_LENGTH) }
  else
    { r with is_global_timer_sane := false, downcount := c2d r.slice_length }

/-- Advance, lines 371 to 411: drain the inbox, account the executed cycles,
refresh the frozen overclock snapshot (embodied in `d2c` and `c2d`), reset
the slice, run the fire loop under a sane timer, then finish with the slice
and downcount reprogramming of `advanceFinish`. -/
def Advance (cbs : String → Nat → Int → List (Int × String × Nat)) (d2c c2d : Int → Int)
    (fuel : Nat) (s : SchedState) : SchedState × List Event × Bool :=
  let s1 := MoveEvents s
  let cyclesExecuted := s1.slice_length - d2c s1.downcount
  let s2 : SchedState := { s1 with
    global_timer := s1.global_timer + cyclesExecuted,
    slice_length := MAX_SLICE_LENGTH,
    is_global_timer_sane := true }
  let out := fireLoop cbs d2c c2d fuel s2 []
  (advanceFinish c2d out.1, out.2.1, out.2.2)

/-- AdjustEventQueueTimes, lines 429 to 440: rescale every pending deadline
around `global_timer` in truncating s64 arithmetic; the array is not
rebuilt. -/
def AdjustEventQueueTimes (s : SchedState) (new_ppc_clock old_ppc_clock : Nat) : SchedState :=
  { s with
    event_queue := s.event_queue.map (fun ev =>
      { ev with
        time := s.global_timer +
                ((ev.time - s.global_timer) * (new_ppc_clock : Int)).tdiv
                  (old_ppc_clock : Int) }) }

/-- Idle, lines 442 to 459: bank the remaining cycles of the slice and force
the downcount to zero (the FIFO flush is an external collaborator). -/
def Idle (d2c : Int → Int) (s : SchedState) : SchedState :=
  { s with idled_cycles := s.idled_cycles + d2c s.downcount, downcount := 0 }

/-- State established by Init, lines 140 to 165: fresh queue and inbox, zero
timer, full slice, and a deliberately sane timer for the interval between
Init and the first Advance (comment at lines 157 to 160). -/
def initState (c2d : Int → Int) : SchedState :=
  { event_queue := #[], event_fifo_id := 0, ts_queue := [], global_timer := 0,
    slice_length := MAX_SLICE_LENGTH, downcount := c2d MAX_SLICE_LENGTH,
    is_global_timer_sane := true, idled_cycles := 0 }

/-- Inbox contents as they will enter the heap: MoveEvents assigns sequence
tags `c, c + 1, ...` in drain order. -/
def assignSeqs (c : Nat) : List Event → List Event
  | [] => []
  | ev :: rest => { ev with fifo_order := c } :: assignSeqs (c + 1) rest

/-- A registered callback, embedded by its observable effect on the
scheduler: the reentrant CPU-thread ScheduleEvent requests it makes when
fired with a given userdata and lateness. -/
abbrev Callback := Nat → Int → List (Int × String × Nat)

/-- EmptyTimedCallback, lines 94 to 96: does nothing. -/
def EmptyTimedCallback : Callback := fun _ _ => []

/-- The event type registry, `std::unordered_map<std::string, EventType>`:
association list from unique name to callback.  Entry identity is the unique
name. -/
abbrev Registry := List (String × Callback)

/-- RegisterEvent, lines 115 to 130: `emplace` does not overwrite an existing
entry, so on a duplicate name (past the failed assertion) the existing entry
is returned and the new callback is discarded. -/
def RegisterEvent (reg : Registry) (name : String) (cb : Callback) :
    Registry × (String × Callback) :=
  match reg.find? (fun en => en.1 == name) with
  | some entry => (reg, entry)
  | none => (reg ++ [(name, cb)], (name, cb))

/-- Registry right after Init, line 164: only the lost-event sentinel, which
is registered under the name "_lost_event" with the empty callback. -/
def initRegistry : Registry := (RegisterEvent [] "_lost_event" EmptyTimedCallback).1

/-- One persisted event of the save-state stream: deadline, sequence,
userdata and the event type name, lines 207 to 237. -/
structure PEvent where
  time : Int
  fifo_order : Nat
  userdata : Nat
  name : String
deriving DecidableEq, Repr

instance : Inhabited PEvent := ⟨⟨0, 0, 0, ""⟩⟩

/-- Resolution of one persisted event, lines 222 to 236: fields intact, the
type resolved by name in the registry, and an unknown name replaced by the
`ev_lost` sentinel registered by Init. -/
def loadEvent (reg : Registry) (p : PEvent) : Event :=
  { time := p.time, fifo_order := p.fifo_order, userdata := p.userdata,
    type := match reg.find? (fun en => en.1 == p.name) with
      | some entry => entry.1
      | none => "_lost_event" }

/-- Read-mode half of the DoState element loop, lines 207 to 237. -/
def doStateLoad (reg : Registry) (persisted : List PEvent) : List Event :=
  persisted.map (loadEvent reg)

/-- Public operations of the scheduler, for whole-trace statements. -/
inductive Op where
  | advance (fuel : Nat)
  | scheduleCpu (delta : Int) (ty : String) (ud : Nat)
  | scheduleNonCpu (delta : Int) (ty : String) (ud : Nat)
  | moveEvents
  | removeEvent (ty : String)
  | removeAllEvents (ty : String)
  | forceExceptionCheck (cycles : Int)
  | idle
  | adjustTimes (new_clock old_clock : Nat)

/-- Whether an operation is an Advance call. -/
def Op.isAdvance : Op → Bool
  | .advance _ => true
  | _ => false

/-- Interpretation of one public operation on the scheduler state. -/
def applyOp (cbs : String → Nat → Int → List (Int × String × Nat)) (d2c c2d : Int → Int)
    (op : Op) (s : SchedState) : SchedState :=
  match op with
  | .advance fuel => (Advance cbs d2c c2d fuel s).1
  | .scheduleCpu delta ty ud => ScheduleEvent d2c c2d s delta ty ud true
  | .scheduleNonCpu delta ty ud => ScheduleEvent d2c c2d s delta ty ud false
  | .moveEvents => MoveEvents s
  | .removeEvent ty => RemoveEvent s ty
  | .removeAllEvents ty => RemoveAllEvents s ty
  | .forceExceptionCheck c => ForceExceptionCheck d2c c2d s c
  | .idle => Idle d2c s
  | .adjustTimes n o => AdjustEventQueueTimes s n o

/-- A whole trace of public operations, applied left to right. -/
def runOps (cbs : String → Nat → Int → List (Int × String × Nat)) (d2c c2d : Int → Int)
    (ops : List Op) (s : SchedState) : SchedState :=
  ops.foldl (fun st op => applyOp cbs d2c c2d op st) s

/-- CPU-thread ScheduleEvent under a sane timer: the deadline is exactly
`global_timer + delta`, the sequence is the current counter, and no early
exception check happens. -/
theorem ScheduleEvent_cpu_sane (d2c c2d : Int → Int) (s : SchedState) (delta : Int)
    (ty : String) (ud : Nat) (hsane : s.is_global_timer_sane = true) :
    ScheduleEvent d2c c2d s delta ty ud true =
      { s with
        event_queue := heapPush s.event_queue
          { time := s.global_timer + delta, fifo_order := s.event_fifo_id,
            userdata := ud, type := ty },
        event_fifo_id := s.event_fifo_id + 1 } := by
  unfold ScheduleEvent GetTicks
  rw [if_pos rfl, if_pos hsane, if_pos hsane]

/-- Events a callback request list pushes during the fire loop: deadlines
`global_timer + delta` and consecutive fresh sequence tags. -/
def pushedEvents (g : Int) (c : Nat) : List (Int × String × Nat) → List Event
  | [] => []
  | r :: rest => { time := g + r.1, fifo_order := c, userdata := r.2.2, type := r.2.1 } ::
      pushedEvents g (c + 1) rest

theorem pushedEvents_length (g : Int) : ∀ (reqs : List (Int × String × Nat)) (c : Nat),
    (pushedEvents g c reqs).length = reqs.length := by
  intro reqs
  induction reqs with
  | nil => intro c; rfl
  | cons r rest ih =>
    intro c
    show (pushedEvents g c (r :: rest)).length = (r :: rest).length
    rw [pushedEvents]
    simp only [List.length_cons, ih]

theorem pushedEvents_mem {g : Int} : ∀ {reqs : List (Int × String × Nat)} {c : Nat} {e : Event},
    e ∈ pushedEvents g c reqs → (∃ r ∈ reqs, e.time = g + r.1) ∧
      c ≤ e.fifo_order ∧ e.fifo_order < c + reqs.length := by
  intro reqs
  induction reqs with
  | nil => intro c e he; cases he
  | cons r rest ih =>
    intro c e he
    rw [pushedEvents] at he
    rcases List.mem_cons.mp he with h | h
    · subst h
      exact ⟨⟨r, List.mem_cons_self .., rfl⟩, le_refl _, by simp only [List.length_cons]; omega⟩
    · obtain ⟨⟨r2, hr2, ht⟩, hc1, hc2⟩ := ih h
      exact ⟨⟨r2, List.mem_cons_of_mem _ hr2, ht⟩, by omega, by simp only [List.length_cons]; omega⟩

/-- Folding a list of reentrant CPU ScheduleEvent requests over a sane state:
the heap invariant is kept, the non-queue fields are untouched, and the queue
gains exactly the pushed events. -/
theorem scheduleFold_spec (d2c c2d : Int → Int) :
    ∀ (reqs : List (Int × String × Nat)) (s : SchedState),
    s.is_global_timer_sane = true → IsHeap s.event_queue →
    (let r := reqs.foldl (fun st req => ScheduleEvent d2c c2d st req.1 req.2.1 req.2.2 true) s
     IsHeap r.event_queue ∧
     r.event_queue.toList.Perm
       (s.event_queue.toList ++ pushedEvents s.global_timer s.event_fifo_id reqs) ∧
     r.event_fifo_id = s.event_fifo_id + reqs.length ∧
     r.global_timer = s.global_timer ∧ r.is_global_timer_sane = true ∧
     r.slice_length = s.slice_length ∧ r.downcount = s.downcount ∧
     r.ts_queue = s.ts_queue ∧ r.idled_cycles = s.idled_cycles) := by
  intro reqs
  induction reqs with
  | nil =>
    intro s hsane hheap
    exact ⟨hheap, by simp [pushedEvents], by simp, rfl, hsane, rfl, rfl, rfl, rfl⟩
  | cons r rest ih =>
    intro s hsane hheap
    rw [List.foldl_cons, ScheduleEvent_cpu_sane d2c c2d s r.1 r.2.1 r.2.2 hsane]
    obtain ⟨hpH, hpP⟩ := heapPush_spec
      { time := s.global_timer + r.1, fifo_order := s.event_fifo_id,
        userdata := r.2.2, type := r.2.1 } hheap
    obtain ⟨i1, i2, i3, i4, i5, i6, i7, i8, i9⟩ := ih
      { s with
        event_queue := heapPush s.event_queue
          { time := s.global_timer + r.1, fifo_order := s.event_fifo_id,
            userdata := r.2.2, type := r.2.1 },
        event_fifo_id := s.event_fifo_id + 1 } hsane hpH
    refine ⟨i1, ?_, by simp only [i3]; simp [List.length_cons]; omega, i4, i5, i6, i7, i8, i9⟩
    refine i2.trans ?_
    show (((heapPush s.event_queue _).toList) ++ _).Perm _
    refine List.Perm.trans (List.Perm.append_right _ hpP) ?_
    rw [List.append_assoc]
    refine List.Perm.append_left _ ?_
    rw [pushedEvents]
    exact List.Perm.refl _

/-- The MoveEvents drain loop: heap kept, inbox events enter the heap with
consecutive drain-time sequence tags, every other field untouched. -/
theorem moveLoop_spec : ∀ (l : List Event) (s : SchedState),
    IsHeap s.event_queue →
    IsHeap (moveLoop l s).event_queue ∧
    (moveLoop l s).event_queue.toList.Perm
      (s.event_queue.toList ++ assignSeqs s.event_fifo_id l) ∧
    (moveLoop l s).event_fifo_id = s.event_fifo_id + l.length ∧
    (moveLoop l s).ts_queue = s.ts_queue ∧
    (moveLoop l s).global_timer = s.global_timer ∧
    (moveLoop l s).slice_length = s.slice_length ∧
    (moveLoop l s).downcount = s.downcount ∧
    (moveLoop l s).is_global_timer_sane = s.is_global_timer_sane ∧
    (moveLoop l s).idled_cycles = s.idled_cycles := by
  intro l
  induction l with
  | nil =>
    intro s hheap
    exact ⟨hheap, by simp [moveLoop, assignSeqs], by simp [moveLoop], rfl, rfl, rfl, rfl, rfl, rfl⟩
  | cons ev rest ih =>
    intro s hheap
    rw [moveLoop]
    obtain ⟨hpH, hpP⟩ := heapPush_spec { ev with fifo_order := s.event_fifo_id } hheap
    obtain ⟨i1, i2, i3, i4, i5, i6, i7, i8, i9⟩ := ih
      { s with
        event_queue := heapPush s.event_queue { ev with fifo_order := s.event_fifo_id },
        event_fifo_id := s.event_fifo_id + 1 } hpH
    refine ⟨i1, ?_, by simp only [i3]; simp [List.length_cons]; omega, i4, i5, i6, i7, i8, i9⟩
    refine i2.trans ?_
    refine List.Perm.trans (List.Perm.append_right _ hpP) ?_
    rw [List.append_assoc]
    refine List.Perm.append_left _ ?_
    rw [assignSeqs]
    exact List.Perm.refl _

theorem fireLoop_zero (cbs : String → Nat → Int → List (Int × String × Nat))
    (d2c c2d : Int → Int) (s : SchedState) (fired : List Event) :
    fireLoop cbs d2c c2d 0 s fired = (s, fired, false) := rfl

theorem fireLoop_succ (cbs : String → Nat → Int → List (Int × String × Nat))
    (d2c c2d : Int → Int) (fuel : Nat) (s : SchedState) (fired : List Event) :
    fireLoop cbs d2c c2d (fuel + 1) s fired =
      if 0 < s.event_queue.size ∧ (getE s.event_queue 0).time ≤ s.global_timer then
        fireLoop cbs d2c c2d fuel
          ((cbs (getE s.event_queue 0).type (getE s.event_queue 0).userdata
            (s.global_timer - (getE s.event_queue 0).time)).foldl
            (fun st r => ScheduleEvent d2c c2d st r.1 r.2.1 r.2.2 true)
            { s with event_queue := popHeap s.event_queue })
          (fired ++ [getE s.event_queue 0])
      else (s, fired, true) := rfl

/-- State behaviour of the fire loop under a sane timer: the heap invariant
is preserved, the timer and slice bookkeeping are untouched, a completed
loop leaves only strictly future events, and no event disappears except by
being fired. -/
theorem fireLoop_state_spec (cbs : String → Nat → Int → List (Int × String × Nat))
    (d2c c2d : Int → Int) : ∀ (fuel : Nat) (s : SchedState) (fired : List Event),
    s.is_global_timer_sane = true → IsHeap s.event_queue →
    IsHeap (fireLoop cbs d2c c2d fuel s fired).1.event_queue ∧
    (fireLoop cbs d2c c2d fuel s fired).1.global_timer = s.global_timer ∧
    (fireLoop cbs d2c c2d fuel s fired).1.is_global_timer_sane = true ∧
    (fireLoop cbs d2c c2d fuel s fired).1.slice_length = s.slice_length ∧
    (fireLoop cbs d2c c2d fuel s fired).1.downcount = s.downcount ∧
    (fireLoop cbs d2c c2d fuel s fired).1.ts_queue = s.ts_queue ∧
    (fireLoop cbs d2c c2d fuel s fired).1.idled_cycles = s.idled_cycles ∧
    ((fireLoop cbs d2c c2d fuel s fired).2.2 = true →
      ∀ e ∈ (fireLoop cbs d2c c2d fuel s fired).1.event_queue.toList,
        s.global_timer < e.time) ∧
    (∀ e : Event, List.count e fired + List.count e s.event_queue.toList ≤
      List.count e (fireLoop cbs d2c c2d fuel s fired).2.1 +
        List.count e (fireLoop cbs d2c c2d fuel s fired).1.event_queue.toList) := by
  intro fuel
  induction fuel with
  | zero =>
    intro s fired hsane hheap
    refine ⟨hheap, rfl, hsane, rfl, rfl, rfl, rfl, ?_, fun e => le_refl _⟩
    intro hfalse
    exact absurd hfalse (by rw [fireLoop_zero]; simp)
  | succ fuel ih =>
    intro s fired hsane hheap
    rw [fireLoop_succ]
    by_cases hc : 0 < s.event_queue.size ∧ (getE s.event_queue 0).time ≤ s.global_timer
    · rw [if_pos hc]
      obtain ⟨hph, hpp⟩ := popHeap_spec hheap hc.1
      obtain ⟨f1, f2, f3, f4, f5, f6, f7, f8, f9⟩ := scheduleFold_spec d2c c2d
        (cbs (getE s.event_queue 0).type (getE s.event_queue 0).userdata
          (s.global_timer - (getE s.event_queue 0).time))
        { s with event_queue := popHeap s.event_queue } hsane hph
      obtain ⟨g1, g2, g3, g4, g5, g6, g7, g8, g9⟩ := ih _ (fired ++ [getE s.event_queue 0])
        f5 f1
      refine ⟨g1, by rw [g2, f4], g3, by rw [g4, f6], by rw [g5, f7],
        by rw [g6, f8], by rw [g7, f9], ?_, ?_⟩
      · intro hdone e he
        have := g8 hdone e he
        rwa [f4] at this
      · intro e
        have key := g9 e
        have hcount_s : List.count e s.event_queue.toList =
            List.count e (popHeap s.event_queue).toList +
              (if (getE s.event_queue 0 == e) = true then 1 else 0) := by
          have := hpp.count_eq e
          rw [List.count_cons] at this
          omega
        rw [show ({ s with event_queue := popHeap s.event_queue } : SchedState).event_queue
              = popHeap s.event_queue from rfl,
            show ({ s with event_queue := popHeap s.event_queue } : SchedState).global_timer
              = s.global_timer from rfl,
            show ({ s with event_queue := popHeap s.event_queue } : SchedState).event_fifo_id
              = s.event_fifo_id from rfl] at f2
        have hcount_s3 : List.count e (popHeap s.event_queue).toList ≤
            List.count e (List.foldl
              (fun st r => ScheduleEvent d2c c2d st r.1 r.2.1 r.2.2 true)
              { s with event_queue := popHeap s.event_queue }
              (cbs (getE s.event_queue 0).type (getE s.event_queue 0).userdata
                (s.global_timer - (getE s.event_queue 0).time))).event_queue.toList := by
          rw [f2.count_eq e, List.count_append]
          omega
        have hcount_f : List.count e (fired ++ [getE s.event_queue 0]) =
            List.count e fired + (if (getE s.event_queue 0 == e) = true then 1 else 0) := by
          rw [List.count_append, List.count_cons, List.count_nil]
          omega
        omega
    · rw [if_neg hc]
      refine ⟨hheap, rfl, hsane, rfl, rfl, rfl, rfl, ?_, fun e => le_refl _⟩
      intro _ e he
      have he2 : e ∈ s.event_queue.toList := he
      rcases List.mem_iff_getElem.mp he2 with ⟨j, hj, hje⟩
      rw [Array.length_toList] at hj
      have hje2 : getE s.event_queue j = e := by
        rw [getE_eq hj, Array.getElem_eq_getElem_toList]
        exact hje
      have hroot := isHeap_root_min hheap j hj
      rw [hje2] at hroot
      have hft := eventLE_time hroot
      rcases Decidable.em ((getE s.event_queue 0).time ≤ s.global_timer) with h1 | h1
      · exact absurd ⟨by omega, h1⟩ hc
      · omega

theorem getE_mem_toList {q : Array Event} {i : Nat} (h : i < q.size) : getE q i ∈ q.toList := by
  rw [getE_eq h, Array.getElem_eq_getElem_toList]
  exact List.getElem_mem _

theorem isHeap_root_min_mem {q : Array Event} (hq : IsHeap q) {e : Event}
    (he : e ∈ q.toList) : eventLE (getE q 0) e := by
  rcases List.mem_iff_getElem.mp he with ⟨j, hj, hje⟩
  rw [Array.length_toList] at hj
  have : getE q j = e := by
    rw [getE_eq hj, Array.getElem_eq_getElem_toList]
    exact hje
  rw [← this]
  exact isHeap_root_min hq j hj

theorem eventLE_of_time_fifo {a b : Event} (ht : a.time ≤ b.time)
    (hf : a.fifo_order ≤ b.fifo_order) : eventLE a b := by
  rw [eventLE_iff]
  omega

/-- Sortedness of the fire loop output: starting from a heap whose sequence
tags are below the counter, with every already fired event at or before the
global timer and below everything still queued, and callbacks that only
schedule non-negative deltas, the fired list stays sorted in the
lexicographic (deadline, sequence) order. -/
theorem fireLoop_sorted (cbs : String → Nat → Int → List (Int × String × Nat))
    (d2c c2d : Int → Int)
    (hcbs : ∀ t u lat r, r ∈ cbs t u lat → 0 ≤ r.1) :
    ∀ (fuel : Nat) (s : SchedState) (fired : List Event),
    s.is_global_timer_sane = true → IsHeap s.event_queue →
    (∀ f ∈ fired, f.time ≤ s.global_timer) →
    List.Sorted eventLE fired →
    (∀ f ∈ fired, ∀ e ∈ s.event_queue.toList, eventLE f e) →
    (∀ e ∈ s.event_queue.toList, e.fifo_order < s.event_fifo_id) →
    (∀ f ∈ fired, f.fifo_order < s.event_fifo_id) →
    List.Sorted eventLE (fireLoop cbs d2c c2d fuel s fired).2.1 := by
  intro fuel
  induction fuel with
  | zero =>
    intro s fired _ _ _ hsorted _ _ _
    rw [fireLoop_zero]
    exact hsorted
  | succ fuel ih =>
    intro s fired hsane hheap htime hsorted hbelow hqfifo hffifo
    rw [fireLoop_succ]
    by_cases hc : 0 < s.event_queue.size ∧ (getE s.event_queue 0).time ≤ s.global_timer
    · rw [if_pos hc]
      obtain ⟨hph, hpp⟩ := popHeap_spec hheap hc.1
      obtain ⟨f1, f2, f3, f4, f5, f6, f7, f8, f9⟩ := scheduleFold_spec d2c c2d
        (cbs (getE s.event_queue 0).type (getE s.event_queue 0).userdata
          (s.global_timer - (getE s.event_queue 0).time))
        { s with event_queue := popHeap s.event_queue } hsane hph
      simp only [show ({ s with event_queue := popHeap s.event_queue } : SchedState).event_queue
            = popHeap s.event_queue from rfl,
          show ({ s with event_queue := popHeap s.event_queue } : SchedState).global_timer
            = s.global_timer from rfl,
          show ({ s with event_queue := popHeap s.event_queue } : SchedState).event_fifo_id
            = s.event_fifo_id from rfl] at f2 f3 f4
      have hevt_mem : getE s.event_queue 0 ∈ s.event_queue.toList := getE_mem_toList hc.1
      have hmem_pop : ∀ e ∈ (popHeap s.event_queue).toList, e ∈ s.event_queue.toList := by
        intro e he
        exact hpp.mem_iff.mp (List.mem_cons_of_mem _ he)
      have hmem_s3 : ∀ e, e ∈ (List.foldl
          (fun st r => ScheduleEvent d2c c2d st r.1 r.2.1 r.2.2 true)
          { s with event_queue := popHeap s.event_queue }
          (cbs (getE s.event_queue 0).type (getE s.event_queue 0).userdata
            (s.global_timer - (getE s.event_queue 0).time))).event_queue.toList →
          e ∈ (popHeap s.event_queue).toList ∨
            (s.global_timer ≤ e.time ∧ s.event_fifo_id ≤ e.fifo_order ∧
              e.fifo_order < s.event_fifo_id + (cbs (getE s.event_queue 0).type
                (getE s.event_queue 0).userdata
                (s.global_timer - (getE s.event_queue 0).time)).length) := by
        intro e he
        rcases List.mem_append.mp (f2.mem_iff.mp he) with h | h
        · exact Or.inl h
        · right
          obtain ⟨⟨r, hr, ht⟩, hc1, hc2⟩ := pushedEvents_mem h
          have hd := hcbs _ _ _ _ hr
          exact ⟨by omega, hc1, hc2⟩
      apply ih
      · exact f5
      · exact f1
      · intro f hf
        rw [f4]
        rcases List.mem_append.mp hf with h | h
        · exact htime f h
        · rcases List.mem_singleton.mp h with rfl
          exact hc.2
      · rw [List.Sorted, List.pairwise_append]
        refine ⟨hsorted, by simp, ?_⟩
        intro f hf e he
        rcases List.mem_singleton.mp he with rfl
        exact hbelow f hf _ hevt_mem
      · intro f hf e he
        rcases hmem_s3 e he with hcase | ⟨het, hef, _⟩
        · have hes : e ∈ s.event_queue.toList := hmem_pop e hcase
          rcases List.mem_append.mp hf with h | h
          · exact hbelow f h e hes
          · rcases List.mem_singleton.mp h with rfl
            exact isHeap_root_min_mem hheap hes
        · rcases List.mem_append.mp hf with h | h
          · refine eventLE_of_time_fifo (by have := htime f h; omega) (by have := hffifo f h; omega)
          · rcases List.mem_singleton.mp h with rfl
            refine eventLE_of_time_fifo (by have := hc.2; omega)
              (by have := hqfifo _ hevt_mem; omega)
      · intro e he
        rw [f3]
        rcases hmem_s3 e he with hcase | ⟨_, _, hef⟩
        · have := hqfifo e (hmem_pop e hcase)
          omega
        · omega
      · intro f hf
        rw [f3]
        rcases List.mem_append.mp hf with h | h
        · have := hffifo f h
          omega
        · rcases List.mem_singleton.mp h with rfl
          have := hqfifo _ hevt_mem
          omega
    · rw [if_neg hc]
      exact hsorted

theorem popHeap_empty {q : Array Event} (h : q.size = 0) : popHeap q = q := by
  unfold popHeap
  rw [if_neg (by omega)]

/-- RemoveEvent on the queue: the fast path leaves the array untouched when
nothing matches, the erased queue is exactly the stable filter of the
survivors, and the rebuild restores the heap invariant. -/
theorem removeEventQueue_spec (q : Array Event) (ty : String) :
    ((∀ e ∈ q.toList, ¬ e.type = ty) → removeEventQueue q ty = q) ∧
    (removeEventQueue q ty).toList.Perm (q.toList.filter (fun e => e.type != ty)) ∧
    (IsHeap q → IsHeap (removeEventQueue q ty)) := by
  unfold removeEventQueue
  by_cases hlen : (q.toList.filter (fun e => e.type != ty)).length = q.size
  · rw [if_pos hlen]
    have hfull : q.toList.filter (fun e => e.type != ty) = q.toList := by
      refine (List.filter_sublist _).eq_of_length ?_
      rw [Array.length_toList]
      exact hlen
    exact ⟨fun _ => rfl, by rw [hfull], fun hh => hh⟩
  · rw [if_neg hlen]
    obtain ⟨mh, mp⟩ := makeHeap_spec (Array.mk (q.toList.filter (fun e => e.type != ty)))
    refine ⟨?_, mp, fun _ => mh⟩
    intro hall
    exfalso
    apply hlen
    rw [List.filter_eq_self.mpr, Array.length_toList]
    intro a ha
    exact bne_iff_ne.mpr (hall a ha)

/-- Queue states reachable by the heap insertions of the scheduler together
with fire-loop pops and RemoveEvent erasures, with the sequence counter that
accompanies them: CPU-thread ScheduleEvent pushes and MoveEvents drains both
push a fresh counter value as the sequence tag. -/
inductive ReachableQ : Array Event → Nat → Prop where
  | init : ReachableQ #[] 0
  | push (q : Array Event) (c : Nat) (t : Int) (ud : Nat) (ty : String) :
      ReachableQ q c → ReachableQ (heapPush q ⟨t, c, ud, ty⟩) (c + 1)
  | pop (q : Array Event) (c : Nat) : ReachableQ q c → ReachableQ (popHeap q) c
  | remove (q : Array Event) (c : Nat) (ty : String) :
      ReachableQ q c → ReachableQ (removeEventQueue q ty) c

/-- Every reachable queue satisfies the heap invariant and all its sequence
tags are below the counter. -/
theorem reachable_inv {q : Array Event} {c : Nat} (h : ReachableQ q c) :
    IsHeap q ∧ ∀ e ∈ q.toList, e.fifo_order < c := by
  induction h with
  | init =>
    constructor
    · intro j hj
      simp at hj
    · intro e he
      simp at he
  | push q c t ud ty _ ih =>
    obtain ⟨hH, hF⟩ := ih
    obtain ⟨pH, pP⟩ := heapPush_spec ⟨t, c, ud, ty⟩ hH
    refine ⟨pH, ?_⟩
    intro e he
    rcases List.mem_append.mp (pP.mem_iff.mp he) with h | h
    · have := hF e h
      omega
    · rcases List.mem_singleton.mp h with rfl
      exact Nat.lt_succ_self c
  | pop q c _ ih =>
    obtain ⟨hH, hF⟩ := ih
    by_cases hq : 0 < q.size
    · obtain ⟨pH, pP⟩ := popHeap_spec hH hq
      refine ⟨pH, ?_⟩
      intro e he
      exact hF e (pP.mem_iff.mp (List.mem_cons_of_mem _ he))
    · rw [popHeap_empty (by omega)]
      exact ⟨hH, hF⟩
  | remove q c ty _ ih =>
    obtain ⟨hH, hF⟩ := ih
    obtain ⟨_, rP, rH⟩ := removeEventQueue_spec q ty
    refine ⟨rH hH, ?_⟩
    intro e he
    exact hF e (List.mem_filter.mp (rP.mem_iff.mp he)).1

/-- State of Advance at the point the fire loop starts, lines 377 to 385:
inbox drained, executed cycles accounted, slice reset, timer sane. -/
def advanceMid (d2c : Int → Int) (s : SchedState) : SchedState :=
  { MoveEvents s with
    global_timer := (MoveEvents s).global_timer +
      ((MoveEvents s).slice_length - d2c (MoveEvents s).downcount),
    slice_length := MAX_SLICE_LENGTH,
    is_global_timer_sane := true }

theorem Advance_eq (cbs : String → Nat → Int → List (Int × String × Nat))
    (d2c c2d : Int → Int) (fuel : Nat) (s : SchedState) :
    Advance cbs d2c c2d fuel s =
      (advanceFinish c2d (fireLoop cbs d2c c2d fuel (advanceMid d2c s) []).1,
       (fireLoop cbs d2c c2d fuel (advanceMid d2c s) []).2.1,
       (fireLoop cbs d2c c2d fuel (advanceMid d2c s) []).2.2) := rfl

theorem advanceFinish_spec (c2d : Int → Int) (r : SchedState) :
    (advanceFinish c2d r).is_global_timer_sane = false ∧
    (advanceFinish c2d r).event_queue = r.event_queue ∧
    (advanceFinish c2d r).global_timer = r.global_timer ∧
    (0 < r.event_queue.size →
      (advanceFinish c2d r).slice_length =
        min ((getE r.event_queue 0).time - r.global_timer) MAX_SLICE_LENGTH) ∧
    (r.event_queue.size = 0 → (advanceFinish c2d r).slice_length = r.slice_length) ∧
    (advanceFinish c2d r).downcount = c2d ((advanceFinish c2d r).slice_length) ∧
    (advanceFinish c2d r).event_fifo_id = r.event_fifo_id ∧
    (advanceFinish c2d r).ts_queue = r.ts_queue := by
  unfold advanceFinish
  by_cases hq : 0 < r.event_queue.size
  · rw [if_pos hq]
    exact ⟨rfl, rfl, rfl, fun _ => rfl, fun h0 => by omega, rfl, rfl, rfl⟩
  · rw [if_neg hq]
    exact ⟨rfl, rfl, rfl, fun h0 => absurd h0 hq, fun _ => rfl, rfl, rfl, rfl⟩

/-- MoveEvents: the heap invariant is preserved, the inbox empties into the
heap with drain-time sequence tags, and the timer and slice bookkeeping is
untouched. -/
theorem MoveEvents_spec (s : SchedState) (hheap : IsHeap s.event_queue) :
    IsHeap (MoveEvents s).event_queue ∧
    (MoveEvents s).event_queue.toList.Perm
      (s.event_queue.toList ++ assignSeqs s.event_fifo_id s.ts_queue) ∧
    (MoveEvents s).event_fifo_id = s.event_fifo_id + s.ts_queue.length ∧
    (MoveEvents s).ts_queue = [] ∧
    (MoveEvents s).global_timer = s.global_timer ∧
    (MoveEvents s).slice_length = s.slice_length ∧
    (MoveEvents s).downcount = s.downcount ∧
    (MoveEvents s).is_global_timer_sane = s.is_global_timer_sane ∧
    (MoveEvents s).idled_cycles = s.idled_cycles := by
  unfold MoveEvents
  obtain ⟨i1, i2, i3, i4, i5, i6, i7, i8, i9⟩ :=
    moveLoop_spec s.ts_queue { s with ts_queue := [] } hheap
  simp only [show ({ s with ts_queue := [] } : SchedState).event_queue = s.event_queue from rfl,
    show ({ s with ts_queue := [] } : SchedState).event_fifo_id = s.event_fifo_id from rfl,
    show ({ s with ts_queue := [] } : SchedState).ts_queue = ([] : List Event) from rfl,
    show ({ s with ts_queue := [] } : SchedState).global_timer = s.global_timer from rfl,
    show ({ s with ts_queue := [] } : SchedState).slice_length = s.slice_length from rfl,
    show ({ s with ts_queue := [] } : SchedState).downcount = s.downcount from rfl,
    show ({ s with ts_queue := [] } : SchedState).is_global_timer_sane
      = s.is_global_timer_sane from rfl,
    show ({ s with ts_queue := [] } : SchedState).idled_cycles = s.idled_cycles from rfl]
    at i1 i2 i3 i4 i5 i6 i7 i8 i9
  exact ⟨i1, i2, i3, i4, i5, i6, i7, i8, i9⟩

theorem ForceExceptionCheck_sane (d2c c2d : Int → Int) (s : SchedState) (c : Int) :
    (ForceExceptionCheck d2c c2d s c).is_global_timer_sane = s.is_global_timer_sane := by
  unfold ForceExceptionCheck
  split <;> rfl

theorem ScheduleEvent_sane (d2c c2d : Int → Int) (s : SchedState) (delta : Int)
    (ty : String) (ud : Nat) (b : Bool) :
    (ScheduleEvent d2c c2d s delta ty ud b).is_global_timer_sane = s.is_global_timer_sane := by
  unfold ScheduleEvent
  cases b
  · rfl
  · show (let s1 := if s.is_global_timer_sane then s
        else ForceExceptionCheck d2c c2d s delta
      ({ s1 with
        event_queue := heapPush s1.event_queue
          { time := GetTicks d2c s + delta, fifo_order := s1.event_fifo_id,
            userdata := ud, type := ty },
        event_fifo_id := s1.event_fifo_id + 1 } :
          SchedState)).is_global_timer_sane = s.is_global_timer_sane
    show (if s.is_global_timer_sane then s
      else ForceExceptionCheck d2c c2d s delta).is_global_timer_sane = s.is_global_timer_sane
    split
    · rfl
    · exact ForceExceptionCheck_sane d2c c2d s delta

theorem moveLoop_sane : ∀ (l : List Event) (s : SchedState),
    (moveLoop l s).is_global_timer_sane = s.is_global_timer_sane := by
  intro l
  induction l with
  | nil => intro s; rfl
  | cons ev rest ih =>
    intro s
    rw [moveLoop, ih]

theorem MoveEvents_sane (s : SchedState) :
    (MoveEvents s).is_global_timer_sane = s.is_global_timer_sane := by
  unfold MoveEvents
  rw [moveLoop_sane]

theorem scheduleFold_sane (d2c c2d : Int → Int) :
    ∀ (reqs : List (Int × String × Nat)) (s : SchedState),
    (List.foldl (fun st r => ScheduleEvent d2c c2d st r.1 r.2.1 r.2.2 true)
      s reqs).is_global_timer_sane = s.is_global_timer_sane := by
  intro reqs
  induction reqs with
  | nil => intro s; rfl
  | cons r rest ih =>
    intro s
    rw [List.foldl_cons, ih, ScheduleEvent_sane]

theorem fireLoop_sane (cbs : String → Nat → Int → List (Int × String × Nat))
    (d2c c2d : Int → Int) : ∀ (fuel : Nat) (s : SchedState) (fired : List Event),
    (fireLoop cbs d2c c2d fuel s fired).1.is_global_timer_sane = s.is_global_timer_sane := by
  intro fuel
  induction fuel with
  | zero => intro s fired; rw [fireLoop_zero]
  | succ fuel ih =>
    intro s fired
    rw [fireLoop_succ]
    split
    · rw [ih, scheduleFold_sane]
    · rfl

theorem applyOp_sane (cbs : String → Nat → Int → List (Int × String × Nat))
    (d2c c2d : Int → Int) (op : Op) (s : SchedState) :
    (applyOp cbs d2c c2d op s).is_global_timer_sane =
      if op.isAdvance then false else s.is_global_timer_sane := by
  cases op with
  | advance fuel =>
    show (Advance cbs d2c c2d fuel s).1.is_global_timer_sane = _
    rw [Advance_eq]
    exact (advanceFinish_spec c2d _).1
  | scheduleCpu delta ty ud => exact ScheduleEvent_sane d2c c2d s delta ty ud true
  | scheduleNonCpu delta ty ud => exact ScheduleEvent_sane d2c c2d s delta ty ud false
  | moveEvents => exact MoveEvents_sane s
  | removeEvent ty => rfl
  | removeAllEvents ty =>
    show (RemoveEvent (MoveEvents s) ty).is_global_timer_sane = _
    exact MoveEvents_sane s
  | forceExceptionCheck c => exact ForceExceptionCheck_sane d2c c2d s c
  | idle => rfl
  | adjustTimes n o => rfl

theorem runOps_sane (cbs : String → Nat → Int → List (Int × String × Nat))
    (d2c c2d : Int → Int) : ∀ (ops : List Op) (s : SchedState),
    (runOps cbs d2c c2d ops s).is_global_timer_sane =
      (s.is_global_timer_sane && ops.all (fun op => !op.isAdvance)) := by
  intro ops
  induction ops with
  | nil =>
    intro s
    show s.is_global_timer_sane = (s.is_global_timer_sane && true)
    rw [Bool.and_true]
  | cons op rest ih =>
    intro s
    show (runOps cbs d2c c2d rest (applyOp cbs d2c c2d op s)).is_global_timer_sane = _
    rw [ih, applyOp_sane, List.all_cons]
    by_cases hb : op.isAdvance = true <;> simp [hb]

/-- C6: ForceExceptionCheck clamps a negative argument to zero; when the
remaining cycles of the slice exceed the clamped value it shortens the slice
by the difference and reprograms the downcount, otherwise it changes no
state; consequently a second call with the same or a larger value is a
no-op, granted the frozen conversions never round a value up across a
downcount round trip (true in particular at overclock factor one, where both
conversions are the identity). -/
theorem c6_force_exception_check (d2c c2d : Int → Int) (s : SchedState) (c : Int) :
    ForceExceptionCheck d2c c2d s c = ForceExceptionCheck d2c c2d s (max 0 c) ∧
    (max 0 c < d2c s.downcount →
      ForceExceptionCheck d2c c2d s c =
        { s with
          slice_length := s.slice_length - (d2c s.downcount - max 0 c),
          downcount := c2d (max 0 c) }) ∧
    (d2c s.downcount ≤ max 0 c → ForceExceptionCheck d2c c2d s c = s) ∧
    ((∀ x, d2c (c2d x) ≤ x) → ∀ c2, c ≤ c2 →
      ForceExceptionCheck d2c c2d (ForceExceptionCheck d2c c2d s c) c2 =
        ForceExceptionCheck d2c c2d s c) := by
  have hmax : max 0 (max 0 c) = max 0 c := by omega
  refine ⟨?_, ?_, ?_, ?_⟩
  · unfold ForceExceptionCheck
    rw [hmax]
  · intro h
    unfold ForceExceptionCheck
    rw [if_pos h]
  · intro h
    unfold ForceExceptionCheck
    rw [if_neg (by omega)]
  · intro hrt c2 hcc
    by_cases hcond : max 0 c < d2c s.downcount
    · have h1 : ForceExceptionCheck d2c c2d s c =
          { s with
            slice_length := s.slice_length - (d2c s.downcount - max 0 c),
            downcount := c2d (max 0 c) } := by
        unfold ForceExceptionCheck
        rw [if_pos hcond]
      rw [h1]
      unfold ForceExceptionCheck
      rw [show ({ s with
            slice_length := s.slice_length - (d2c s.downcount - max 0 c),
            downcount := c2d (max 0 c) } : SchedState).downcount = c2d (max 0 c) from rfl]
      rw [if_neg (by have := hrt (max 0 c); omega)]
    · have h1 : ForceExceptionCheck d2c c2d s c = s := by
        unfold ForceExceptionCheck
        rw [if_neg hcond]
      rw [h1]
      unfold ForceExceptionCheck
      rw [if_neg (by omega)]

/-- Witness for c6_force_exception_check: identity conversions, remaining
cycles 8, argument 3 then 5. -/
theorem c6_force_exception_check_witness :
    ForceExceptionCheck id id
        { event_queue := #[], event_fifo_id := 0, ts_queue := [], global_timer := 0,
          slice_length := 20000, downcount := 8, is_global_timer_sane := false,
          idled_cycles := 0 } 3 =
      { event_queue := #[], event_fifo_id := 0, ts_queue := [], global_timer := 0,
        slice_length := 20000 - (8 - 3), downcount := 3, is_global_timer_sane := false,
        idled_cycles := 0 } ∧
    ForceExceptionCheck id id (ForceExceptionCheck id id
        { event_queue := #[], event_fifo_id := 0, ts_queue := [], global_timer := 0,
          slice_length := 20000, downcount := 8, is_global_timer_sane := false,
          idled_cycles := 0 } 3) 5 =
      ForceExceptionCheck id id
        { event_queue := #[], event_fifo_id := 0, ts_queue := [], global_timer := 0,
          slice_length := 20000, downcount := 8, is_global_timer_sane := false,
          idled_cycles := 0 } 3 := by
  constructor
  · exact (c6_force_exception_check id id
      { event_queue := #[], event_fifo_id := 0, ts_queue := [], global_timer := 0,
        slice_length := 20000, downcount := 8, is_global_timer_sane := false,
        idled_cycles := 0 } 3).2.1 (by decide)
  · exact (c6_force_exception_check id id
      { event_queue := #[], event_fifo_id := 0, ts_queue := [], global_timer := 0,
        slice_length := 20000, downcount := 8, is_global_timer_sane := false,
        idled_cycles := 0 } 3).2.2.2 (fun x => le_refl x) 5 (by decide)

/-- C9: when no queued event has the given type, RemoveEvent leaves the
whole state, in particular the event-queue array, exactly unchanged (the
erase and the rebuild are both skipped); in every case the surviving queue
is a permutation of the stable filter of the original queue, so survivors
keep their deadline, sequence and userdata. -/
theorem c9_remove_event_frame (s : SchedState) (ty : String) :
    ((∀ e ∈ s.event_queue.toList, ¬ e.type = ty) → RemoveEvent s ty = s) ∧
    (RemoveEvent s ty).event_queue.toList.Perm
      (s.event_queue.toList.filter (fun e => e.type != ty)) ∧
    (RemoveEvent s ty).global_timer = s.global_timer ∧
    (RemoveEvent s ty).event_fifo_id = s.event_fifo_id ∧
    (RemoveEvent s ty).ts_queue = s.ts_queue := by
  obtain ⟨r1, r2, _⟩ := removeEventQueue_spec s.event_queue ty
  refine ⟨?_, r2, rfl, rfl, rfl⟩
  intro hall
  show { s with event_queue := removeEventQueue s.event_queue ty } = s
  rw [r1 hall]

/-- Witness for c9_remove_event_frame: a one-event queue and a type that
does not occur. -/
theorem c9_remove_event_frame_witness :
    RemoveEvent
      { event_queue := #[⟨1, 0, 7, "keep"⟩], event_fifo_id := 1, ts_queue := [],
        global_timer := 0, slice_length := 20000, downcount := 0,
        is_global_timer_sane := false, idled_cycles := 0 } "gone" =
      { event_queue := #[⟨1, 0, 7, "keep"⟩], event_fifo_id := 1, ts_queue := [],
        global_timer := 0, slice_length := 20000, downcount := 0,
        is_global_timer_sane := false, idled_cycles := 0 } :=
  (c9_remove_event_frame
      { event_queue := #[⟨1, 0, 7, "keep"⟩], event_fifo_id := 1, ts_queue := [],
        global_timer := 0, slice_length := 20000, downcount := 0,
        is_global_timer_sane := false, idled_cycles := 0 } "gone").1 (by decide)

/-- C10: registering a name that is already present (execution continuing
past the failed assertion) returns the existing entry and leaves the
registry unchanged, so the original callback is retained and the new one is
discarded, exactly as std::unordered_map::emplace behaves. -/
theorem c10_register_duplicate (reg : Registry) (name : String) (cb : Callback)
    (entry : String × Callback)
    (hfound : reg.find? (fun en => en.1 == name) = some entry) :
    RegisterEvent reg name cb = (reg, entry) := by
  unfold RegisterEvent
  rw [hfound]

/-- Witness for c10_register_duplicate: re-registering "evA" with a new
callback returns the old entry untouched. -/
theorem c10_register_duplicate_witness :
    RegisterEvent [("evA", EmptyTimedCallback)] "evA" (fun u _ => [(1, "evB", u)]) =
      ([("evA", EmptyTimedCallback)], ("evA", EmptyTimedCallback)) :=
  c10_register_duplicate [("evA", EmptyTimedCallback)] "evA" (fun u _ => [(1, "evB", u)])
    ("evA", EmptyTimedCallback) rfl

/-- C8 counterexample: right after Init (the empty trace of public
operations) `is_global_timer_sane` is true, not false, because Init
deliberately treats the interval up to the first Advance as a slice
boundary (comment at CoreTiming.cpp lines 157 to 161). -/
theorem c8_counterexample :
    (runOps (fun _ _ _ => []) id id [] (initState id)).is_global_timer_sane = true := rfl

/-- C8 amended: at the public interface, `is_global_timer_sane` is true
exactly while no Advance has yet run, that is after Init and across any
trace of public operations containing no Advance; every Advance leaves it
false, no other operation ever changes it, and inside the Advance fire loop
(where callbacks run) it stays true. -/
theorem c8_sane_only_before_advance (cbs : String → Nat → Int → List (Int × String × Nat))
    (d2c c2d : Int → Int) (ops : List Op) :
    ((runOps cbs d2c c2d ops (initState c2d)).is_global_timer_sane = true ↔
      ∀ op ∈ ops, op.isAdvance = false) ∧
    (∀ fuel s fired, s.is_global_timer_sane = true →
      (fireLoop cbs d2c c2d fuel s fired).1.is_global_timer_sane = true) := by
  constructor
  · rw [runOps_sane]
    rw [show (initState c2d).is_global_timer_sane = true from rfl, Bool.true_and,
      List.all_eq_true]
    constructor
    · intro h op hop
      have := h op hop
      simpa using this
    · intro h op hop
      simp [h op hop]
  · intro fuel s fired hs
    rw [fireLoop_sane]
    exact hs

/-- Witness for c8_sane_only_before_advance: a trace containing an Advance
(both sides of the equivalence false) and a sane fire-loop run. -/
theorem c8_sane_only_before_advance_witness :
    ((runOps (fun _ _ _ => []) id id [Op.scheduleCpu 5 "x" 0, Op.advance 3]
        (initState id)).is_global_timer_sane = true ↔
      ∀ op ∈ [Op.scheduleCpu 5 "x" 0, Op.advance 3], op.isAdvance = false) ∧
    (fireLoop (fun _ _ _ => []) id id 2 (initState id) []).1.is_global_timer_sane = true :=
  ⟨(c8_sane_only_before_advance (fun _ _ _ => []) id id
      [Op.scheduleCpu 5 "x" 0, Op.advance 3]).1,
   (c8_sane_only_before_advance (fun _ _ _ => []) id id []).2 2 (initState id) [] rfl⟩

/-- C2 counterexample: with global_timer 0, a heap of two events with
deadlines 2 and 3 (all at or above the timer) and sequence tags 5 and 3,
halving the clock (new 1, old 2) collapses both deadlines to 1 and the
array then violates the (deadline, sequence) min-heap property, because the
sequence tie-break between the two slots is inverted.  No rebuild happens,
so the claim that the min-heap property of the array is preserved fails. -/
theorem c2_counterexample :
    IsHeap (#[(⟨2, 5, 0, "a"⟩ : Event), ⟨3, 3, 0, "a"⟩] : Array Event) ∧
    (∀ e ∈ (#[(⟨2, 5, 0, "a"⟩ : Event), ⟨3, 3, 0, "a"⟩] : Array Event).toList,
      (0 : Int) ≤ e.time) ∧
    ¬ IsHeap ((AdjustEventQueueTimes
      { event_queue := #[⟨2, 5, 0, "a"⟩, ⟨3, 3, 0, "a"⟩], event_fifo_id := 6, ts_queue := [],
        global_timer := 0, slice_length := 20000, downcount := 0,
        is_global_timer_sane := false, idled_cycles := 0 } 1 2).event_queue) := by
  refine ⟨by decide, by decide, by decide⟩

/-- C2 amended: when every pending deadline is at or above global_timer and
the old clock is positive, AdjustEventQueueTimes rewrites each slot in place
to `global_timer + (deadline - global_timer) * new div old` (truncating
division), preserves the min-heap property with respect to deadlines alone
(the full (deadline, sequence) heap property can break when the rescale
collapses distinct deadlines, as the counterexample shows), and leaves the
top-of-queue element in place: slot 0 keeps its sequence, userdata and type
and still carries a minimal deadline. -/
theorem c2_adjust_rescale (s : SchedState) (new_clk old_clk : Nat)
    (hheap : IsHeap s.event_queue)
    (hge : ∀ e ∈ s.event_queue.toList, s.global_timer ≤ e.time)
    (hold : 0 < old_clk) :
    (AdjustEventQueueTimes s new_clk old_clk).event_queue.size = s.event_queue.size ∧
    (∀ i, i < s.event_queue.size →
      getE (AdjustEventQueueTimes s new_clk old_clk).event_queue i =
        { getE s.event_queue i with
          time := s.global_timer +
            (((getE s.event_queue i).time - s.global_timer) * (new_clk : Int)).tdiv
              (old_clk : Int) }) ∧
    (∀ c, c < (AdjustEventQueueTimes s new_clk old_clk).event_queue.size → 0 < c →
      (getE (AdjustEventQueueTimes s new_clk old_clk).event_queue (heapParent c)).time ≤
        (getE (AdjustEventQueueTimes s new_clk old_clk).event_queue c).time) ∧
    (0 < s.event_queue.size →
      ∀ e ∈ (AdjustEventQueueTimes s new_clk old_clk).event_queue.toList,
        (getE (AdjustEventQueueTimes s new_clk old_clk).event_queue 0).time ≤ e.time) := by
  have hq2 : (AdjustEventQueueTimes s new_clk old_clk).event_queue =
      s.event_queue.map (fun ev =>
        { ev with
          time := s.global_timer +
                  ((ev.time - s.global_timer) * (new_clk : Int)).tdiv (old_clk : Int) }) := rfl
  have hsz : (AdjustEventQueueTimes s new_clk old_clk).event_queue.size =
      s.event_queue.size := by
    rw [hq2, Array.size_map]
  have hget : ∀ i, i < s.event_queue.size →
      getE (AdjustEventQueueTimes s new_clk old_clk).event_queue i =
        { getE s.event_queue i with
          time := s.global_timer +
            (((getE s.event_queue i).time - s.global_timer) * (new_clk : Int)).tdiv
              (old_clk : Int) } := by
    intro i hi
    conv_lhs => rw [hq2]
    have hi3 : i < (Array.map (fun ev =>
        { ev with
          time := s.global_timer +
                  ((ev.time - s.global_timer) * (new_clk : Int)).tdiv (old_clk : Int) })
        s.event_queue).size := by
      rw [Array.size_map]
      exact hi
    rw [getE_eq hi3, Array.getElem_map, getE_eq hi]
  have hmono : ∀ a b : Int, s.global_timer ≤ a → a ≤ b →
      s.global_timer + ((a - s.global_timer) * (new_clk : Int)).tdiv (old_clk : Int) ≤
        s.global_timer + ((b - s.global_timer) * (new_clk : Int)).tdiv (old_clk : Int) := by
    intro a b ha hab
    have h0a : (0 : Int) ≤ (a - s.global_timer) * (new_clk : Int) :=
      mul_nonneg (by omega) (Int.natCast_nonneg _)
    have h0b : (0 : Int) ≤ (b - s.global_timer) * (new_clk : Int) :=
      mul_nonneg (by omega) (Int.natCast_nonneg _)
    have holdz : (0 : Int) ≤ (old_clk : Int) := Int.natCast_nonneg _
    rw [Int.tdiv_eq_ediv h0a holdz, Int.tdiv_eq_ediv h0b holdz]
    have hop : (0 : Int) < (old_clk : Int) := Int.natCast_pos.mpr hold
    have hmul : (a - s.global_timer) * (new_clk : Int) ≤
        (b - s.global_timer) * (new_clk : Int) :=
      mul_le_mul_of_nonneg_right (by omega) (Int.natCast_nonneg _)
    have := Int.ediv_le_ediv hop hmul
    omega
  have htheap : ∀ c, c < (AdjustEventQueueTimes s new_clk old_clk).event_queue.size → 0 < c →
      (getE (AdjustEventQueueTimes s new_clk old_clk).event_queue (heapParent c)).time ≤
        (getE (AdjustEventQueueTimes s new_clk old_clk).event_queue c).time := by
    intro c hc hcpos
    rw [hsz] at hc
    have hplt : heapParent c < s.event_queue.size := by
      have := heapParent_lt hcpos
      omega
    have hedge := hheap c hc hcpos (Nat.zero_le _)
    have htle := eventLE_time hedge
    have hpge := hge _ (getE_mem_toList hplt)
    rw [hget c hc, hget (heapParent c) hplt]
    exact hmono _ _ hpge htle
  refine ⟨hsz, hget, htheap, ?_⟩
  intro hpos e he
  rcases List.mem_iff_getElem.mp he with ⟨j, hj, hje⟩
  rw [Array.length_toList] at hj
  have hje2 : getE (AdjustEventQueueTimes s new_clk old_clk).event_queue j = e := by
    rw [getE_eq hj, Array.getElem_eq_getElem_toList]
    exact hje
  rw [← hje2]
  exact heapRootMin (AdjustEventQueueTimes s new_clk old_clk).event_queue
    (fun a b => a.time ≤ b.time) (fun a => le_refl _) (fun h1 h2 => le_trans h1 h2)
    (fun c hc hcpos => htheap c hc hcpos) j hj

/-- Witness for c2_adjust_rescale at global_timer 2, deadlines 4 and 10,
clock rescaled from 2 to 3. -/
theorem c2_adjust_rescale_witness :
    (AdjustEventQueueTimes
      { event_queue := #[⟨4, 0, 0, "a"⟩, ⟨10, 1, 0, "b"⟩], event_fifo_id := 2, ts_queue := [],
        global_timer := 2, slice_length := 20000, downcount := 0,
        is_global_timer_sane := false, idled_cycles := 0 } 3 2).event_queue.size = 2 ∧
    (∀ c, c < (AdjustEventQueueTimes
      { event_queue := #[⟨4, 0, 0, "a"⟩, ⟨10, 1, 0, "b"⟩], event_fifo_id := 2, ts_queue := [],
        global_timer := 2, slice_length := 20000, downcount := 0,
        is_global_timer_sane := false, idled_cycles := 0 } 3 2).event_queue.size → 0 < c →
      (getE (AdjustEventQueueTimes
        { event_queue := #[⟨4, 0, 0, "a"⟩, ⟨10, 1, 0, "b"⟩], event_fifo_id := 2, ts_queue := [],
          global_timer := 2, slice_length := 20000, downcount := 0,
          is_global_timer_sane := false, idled_cycles := 0 } 3 2).event_queue
        (heapParent c)).time ≤
      (getE (AdjustEventQueueTimes
        { event_queue := #[⟨4, 0, 0, "a"⟩, ⟨10, 1, 0, "b"⟩], event_fifo_id := 2, ts_queue := [],
          global_timer := 2, slice_length := 20000, downcount := 0,
          is_global_timer_sane := false, idled_cycles := 0 } 3 2).event_queue c).time) := by
  have h := c2_adjust_rescale
    { event_queue := #[⟨4, 0, 0, "a"⟩, ⟨10, 1, 0, "b"⟩], event_fifo_id := 2, ts_queue := [],
      global_timer := 2, slice_length := 20000, downcount := 0,
      is_global_timer_sane := false, idled_cycles := 0 } 3 2 (by decide) (by decide)
    (by decide)
  exact ⟨h.1.trans (by decide), h.2.2.1⟩

/-- C7 counterexample: the sentinel is registered under the name
"_lost_event", not "_lost_event_"; after Init no entry named "_lost_event_"
exists, and an unknown persisted type is remapped to the "_lost_event"
entry. -/
theorem c7_counterexample :
    ("_lost_event_" ∉ initRegistry.map Prod.fst) ∧
    doStateLoad initRegistry [⟨5, 1, 2, "unknown_ev"⟩] = [⟨5, 1, 2, "_lost_event"⟩] := by
  exact ⟨by decide, rfl⟩

/-- C7 amended: on deserialization every persisted event is kept, with its
deadline, sequence and userdata intact; an event whose type name is not in
the registry is remapped to the always-registered "_lost_event" sentinel
(not "_lost_event_"), whose callback is a no-op, while known names resolve
to their own entry; the heap is rebuilt, and the number of heap elements
after load equals the number of persisted events. -/
theorem c7_lost_event (reg : Registry) (l : List PEvent) :
    (doStateLoad reg l).length = l.length ∧
    (makeHeap (Array.mk (doStateLoad reg l))).size = l.length ∧
    IsHeap (makeHeap (Array.mk (doStateLoad reg l))) ∧
    (∀ i, i < l.length →
      ((doStateLoad reg l).getD i default).time = (l.getD i default).time ∧
      ((doStateLoad reg l).getD i default).fifo_order = (l.getD i default).fifo_order ∧
      ((doStateLoad reg l).getD i default).userdata = (l.getD i default).userdata ∧
      ((l.getD i default).name ∉ reg.map Prod.fst →
        ((doStateLoad reg l).getD i default).type = "_lost_event") ∧
      ((l.getD i default).name ∈ reg.map Prod.fst →
        ((doStateLoad reg l).getD i default).type = (l.getD i default).name)) ∧
    List.find? (fun en => en.1 == "_lost_event") initRegistry =
      some ("_lost_event", EmptyTimedCallback) ∧
    (∀ ud late, EmptyTimedCallback ud late = []) := by
  have hlen : (doStateLoad reg l).length = l.length := by
    unfold doStateLoad
    rw [List.length_map]
  have hload : ∀ i (hi : i < l.length),
      (doStateLoad reg l).getD i default = loadEvent reg (l.getD i default) := by
    intro i hi
    rw [List.getD_eq_getElem _ _ (show i < (doStateLoad reg l).length by omega),
      List.getD_eq_getElem _ _ hi]
    exact List.getElem_map _
  obtain ⟨mH, mP⟩ := makeHeap_spec (Array.mk (doStateLoad reg l))
  refine ⟨hlen, ?_, mH, ?_, rfl, fun ud late => rfl⟩
  · have h1 := mP.length_eq
    have h2 : (makeHeap (Array.mk (doStateLoad reg l))).toList.length =
        (makeHeap (Array.mk (doStateLoad reg l))).size := Array.length_toList
    have h3 : (Array.mk (doStateLoad reg l)).toList = doStateLoad reg l := rfl
    rw [h3] at h1
    omega
  · intro i hi
    rw [hload i hi]
    refine ⟨rfl, rfl, rfl, ?_, ?_⟩
    · intro hnot
      have hnone : reg.find? (fun en => en.1 == (l.getD i default).name) = none := by
        rw [List.find?_eq_none]
        intro en hen hbeq
        exact hnot (List.mem_map.mpr ⟨en, hen, eq_of_beq hbeq⟩)
      show (match reg.find? (fun en => en.1 == (l.getD i default).name) with
        | some entry => entry.1
        | none => "_lost_event") = "_lost_event"
      rw [hnone]
    · intro hmem
      obtain ⟨en, hen, hfst⟩ := List.mem_map.mp hmem
      have hsome : (reg.find? (fun en => en.1 == (l.getD i default).name)).isSome := by
        rw [List.find?_isSome]
        exact ⟨en, hen, beq_iff_eq.mpr hfst⟩
      obtain ⟨entry, hentry⟩ := Option.isSome_iff_exists.mp hsome
      have hbeq := List.find?_some hentry
      show (match reg.find? (fun en => en.1 == (l.getD i default).name) with
        | some entry => entry.1
        | none => "_lost_event") = (l.getD i default).name
      rw [hentry]
      exact eq_of_beq hbeq

/-- Witness for c7_lost_event: one persisted event with an unknown type
name loads with its type remapped to the sentinel. -/
theorem c7_lost_event_witness :
    ((doStateLoad initRegistry [⟨5, 1, 2, "unknown_ev"⟩]).getD 0 default).type =
      "_lost_event" ∧
    (doStateLoad initRegistry [⟨5, 1, 2, "unknown_ev"⟩]).length = 1 := by
  have h := c7_lost_event initRegistry [⟨5, 1, 2, "unknown_ev"⟩]
  exact ⟨(h.2.2.2.1 0 (by decide)).2.2.2.1 (by decide), h.1⟩

/-- C1 counterexample: from a reachable queue holding one event with
deadline 100, a callback that reentrantly schedules with delta = -50 makes
the fire loop pop deadline 100 before deadline 50, so the popped sequence is
not non-decreasing. -/
theorem c1_counterexample :
    ReachableQ #[⟨100, 1, 0, "A"⟩] 2 ∧
    ¬ List.Sorted eventLE
      (fireLoop (fun t _ _ => if t = "A" then [(-50, "B", 0)] else [])
        (fun c => c) (fun c => c) 3
        { event_queue := #[⟨100, 1, 0, "A"⟩], event_fifo_id := 2, ts_queue := [],
          global_timer := 100, slice_length := 20000, downcount := 0,
          is_global_timer_sane := true, idled_cycles := 0 } []).2.1 := by
  constructor
  · have h : ReachableQ (heapPush (popHeap (heapPush #[] ⟨0, 0, 0, "X"⟩)) ⟨100, 1, 0, "A"⟩) 2 :=
      .push _ _ 100 0 "A" (.pop _ _ (.push _ _ 0 0 "X" .init))
    have he : heapPush (popHeap (heapPush #[] ⟨0, 0, 0, "X"⟩)) ⟨100, 1, 0, "A"⟩
        = #[⟨100, 1, 0, "A"⟩] := by decide
    exact he ▸ h
  · decide

/-- C1: for every queue reachable by the scheduler's heap insertions
(CPU-thread ScheduleEvent pushes and MoveEvents drains), fire-loop pops and
RemoveEvent erasures, and for callbacks that only schedule non-negative
deltas, the events popped by Advance's fire loop come out sorted in the
non-decreasing lexicographic (deadline, sequence) order; in particular,
events scheduled with the same deadline from the CPU thread fire in
submission order. -/
theorem c1_fire_order (cbs : String → Nat → Int → List (Int × String × Nat))
    (d2c c2d : Int → Int)
    (hcbs : ∀ t u lat r, r ∈ cbs t u lat → 0 ≤ r.1)
    (fuel : Nat) (s : SchedState)
    (hreach : ReachableQ s.event_queue s.event_fifo_id)
    (hsane : s.is_global_timer_sane = true) :
    List.Sorted eventLE (fireLoop cbs d2c c2d fuel s []).2.1 := by
  obtain ⟨hH, hF⟩ := reachable_inv hreach
  exact fireLoop_sorted cbs d2c c2d hcbs fuel s [] hsane hH
    (fun f hf => absurd hf (List.not_mem_nil f)) List.sorted_nil
    (fun f hf => absurd hf (List.not_mem_nil f)) hF
    (fun f hf => absurd hf (List.not_mem_nil f))

/-- Witness for c1_fire_order: one reachable event at deadline 5, timer 10,
no reentrant scheduling. -/
theorem c1_fire_order_witness :
    List.Sorted eventLE
      (fireLoop (fun _ _ _ => []) (fun c => c) (fun c => c) 2
        { event_queue := #[⟨5, 0, 0, "a"⟩], event_fifo_id := 1, ts_queue := [],
          global_timer := 10, slice_length := 20000, downcount := 0,
          is_global_timer_sane := true, idled_cycles := 0 } []).2.1 := by
  apply c1_fire_order
  · intro t u lat r hr
    exact absurd hr (List.not_mem_nil r)
  · show ReachableQ #[⟨5, 0, 0, "a"⟩] 1
    have h : ReachableQ (heapPush #[] ⟨5, 0, 0, "a"⟩) 1 := .push _ _ 5 0 "a" .init
    have he : heapPush #[] ⟨5, 0, 0, "a"⟩ = #[⟨5, 0, 0, "a"⟩] := by decide
    exact he ▸ h
  · rfl

/-- C3: a reentrant CPU-thread ScheduleEvent with delta 0 during the fire
loop (timer sane) reads GetTicks = global_timer, pushes an event whose
deadline is exactly the current global_timer, and whenever the surrounding
fire loop runs to completion in the same Advance pass, that event is among
the events popped and fired by this very pass. -/
theorem c3_reentrant_zero_delta (cbs : String → Nat → Int → List (Int × String × Nat))
    (d2c c2d : Int → Int) (s : SchedState) (ty : String) (ud : Nat)
    (fuel : Nat) (fired0 : List Event)
    (hsane : s.is_global_timer_sane = true) (hheap : IsHeap s.event_queue)
    (hdone : (fireLoop cbs d2c c2d fuel (ScheduleEvent d2c c2d s 0 ty ud true) fired0).2.2
      = true) :
    GetTicks d2c s = s.global_timer ∧
    (ScheduleEvent d2c c2d s 0 ty ud true).event_queue.toList.Perm
      (s.event_queue.toList ++
        [{ time := s.global_timer, fifo_order := s.event_fifo_id,
           userdata := ud, type := ty }]) ∧
    ({ time := s.global_timer, fifo_order := s.event_fifo_id,
       userdata := ud, type := ty } : Event) ∈
      (fireLoop cbs d2c c2d fuel (ScheduleEvent d2c c2d s 0 ty ud true) fired0).2.1 := by
  have hsched := ScheduleEvent_cpu_sane d2c c2d s 0 ty ud hsane
  have hE : ({ time := s.global_timer + 0, fifo_order := s.event_fifo_id,
               userdata := ud, type := ty } : Event) =
      { time := s.global_timer, fifo_order := s.event_fifo_id,
        userdata := ud, type := ty } := by
    rw [add_zero]
  have h2 : (ScheduleEvent d2c c2d s 0 ty ud true).event_queue
      = heapPush s.event_queue
        { time := s.global_timer, fifo_order := s.event_fifo_id,
          userdata := ud, type := ty } := by
    rw [hsched, hE]
  have hqH : IsHeap (ScheduleEvent d2c c2d s 0 ty ud true).event_queue := by
    rw [h2]
    exact (heapPush_spec _ hheap).1
  have hqP : (ScheduleEvent d2c c2d s 0 ty ud true).event_queue.toList.Perm
      (s.event_queue.toList ++
        [{ time := s.global_timer, fifo_order := s.event_fifo_id,
           userdata := ud, type := ty }]) := by
    rw [h2]
    exact (heapPush_spec _ hheap).2
  have hsane2 : (ScheduleEvent d2c c2d s 0 ty ud true).is_global_timer_sane = true := by
    rw [hsched]
    exact hsane
  have hg2 : (ScheduleEvent d2c c2d s 0 ty ud true).global_timer = s.global_timer := by
    rw [hsched]
  have spec := fireLoop_state_spec cbs d2c c2d fuel
    (ScheduleEvent d2c c2d s 0 ty ud true) fired0 hsane2 hqH
  have hcomplete := spec.2.2.2.2.2.2.2.1 hdone
  have hcons := spec.2.2.2.2.2.2.2.2
    { time := s.global_timer, fifo_order := s.event_fifo_id, userdata := ud, type := ty }
  refine ⟨by unfold GetTicks; rw [if_pos hsane], hqP, ?_⟩
  have hcount_in : 1 ≤ List.count
      ({ time := s.global_timer, fifo_order := s.event_fifo_id,
         userdata := ud, type := ty } : Event)
      (ScheduleEvent d2c c2d s 0 ty ud true).event_queue.toList := by
    rw [hqP.count_eq, List.count_append]
    have h1 : List.count
        ({ time := s.global_timer, fifo_order := s.event_fifo_id,
           userdata := ud, type := ty } : Event)
        [{ time := s.global_timer, fifo_order := s.event_fifo_id,
           userdata := ud, type := ty }] = 1 := by
      simp
    omega
  have hnot : List.count
      ({ time := s.global_timer, fifo_order := s.event_fifo_id,
         userdata := ud, type := ty } : Event)
      (fireLoop cbs d2c c2d fuel
        (ScheduleEvent d2c c2d s 0 ty ud true) fired0).1.event_queue.toList = 0 := by
    rw [List.count_eq_zero]
    intro hmem
    have hlt := hcomplete _ hmem
    rw [hg2] at hlt
    have h3 : ({ time := s.global_timer, fifo_order := s.event_fifo_id,
                 userdata := ud, type := ty } : Event).time = s.global_timer := rfl
    rw [h3] at hlt
    exact lt_irrefl _ hlt
  rw [hnot] at hcons
  have hpos : 0 < List.count
      ({ time := s.global_timer, fifo_order := s.event_fifo_id,
         userdata := ud, type := ty } : Event)
      (fireLoop cbs d2c c2d fuel
        (ScheduleEvent d2c c2d s 0 ty ud true) fired0).2.1 := by
    omega
  exact List.count_pos_iff.mp hpos

/-- Witness for c3_reentrant_zero_delta: empty queue, timer 7, one reentrant
zero-delta schedule fired by a two-step loop. -/
theorem c3_reentrant_zero_delta_witness :
    ({ time := 7, fifo_order := 0, userdata := 3, type := "x" } : Event) ∈
      (fireLoop (fun _ _ _ => []) (fun c => c) (fun c => c) 2
        (ScheduleEvent (fun c => c) (fun c => c)
          { event_queue := #[], event_fifo_id := 0, ts_queue := [],
            global_timer := 7, slice_length := 20000, downcount := 0,
            is_global_timer_sane := true, idled_cycles := 0 } 0 "x" 3 true) []).2.1 := by
  have h := c3_reentrant_zero_delta (fun _ _ _ => []) (fun c => c) (fun c => c)
    { event_queue := #[], event_fifo_id := 0, ts_queue := [],
      global_timer := 7, slice_length := 20000, downcount := 0,
      is_global_timer_sane := true, idled_cycles := 0 } "x" 3 2 [] rfl (by decide) (by decide)
  exact h.2.2

/-- C4: when the fire loop of Advance runs to completion, Advance returns
with slice_length at most MAX_SLICE_LENGTH; when the heap is non-empty the
slice is exactly the distance from the timer to the front deadline capped at
MAX_SLICE_LENGTH, it is positive, and every remaining deadline is strictly
future (the loop popped everything at or before the timer); when the heap is
empty the slice is exactly MAX_SLICE_LENGTH. -/
theorem c4_advance_slice (cbs : String → Nat → Int → List (Int × String × Nat))
    (d2c c2d : Int → Int) (fuel : Nat) (s : SchedState)
    (hheap : IsHeap s.event_queue)
    (hdone : (Advance cbs d2c c2d fuel s).2.2 = true) :
    (Advance cbs d2c c2d fuel s).1.slice_length ≤ MAX_SLICE_LENGTH ∧
    (0 < (Advance cbs d2c c2d fuel s).1.event_queue.size →
      (Advance cbs d2c c2d fuel s).1.slice_length =
        min ((getE (Advance cbs d2c c2d fuel s).1.event_queue 0).time -
          (Advance cbs d2c c2d fuel s).1.global_timer) MAX_SLICE_LENGTH ∧
      0 < (Advance cbs d2c c2d fuel s).1.slice_length ∧
      (∀ e ∈ (Advance cbs d2c c2d fuel s).1.event_queue.toList,
        (Advance cbs d2c c2d fuel s).1.global_timer < e.time)) ∧
    ((Advance cbs d2c c2d fuel s).1.event_queue.size = 0 →
      (Advance cbs d2c c2d fuel s).1.slice_length = MAX_SLICE_LENGTH) := by
  have hF : (Advance cbs d2c c2d fuel s).1
      = advanceFinish c2d (fireLoop cbs d2c c2d fuel (advanceMid d2c s) []).1 := rfl
  have hdone2 : (fireLoop cbs d2c c2d fuel (advanceMid d2c s) []).2.2 = true := hdone
  have hmq : (advanceMid d2c s).event_queue = (MoveEvents s).event_queue := rfl
  have hmheap : IsHeap (advanceMid d2c s).event_queue := by
    rw [hmq]
    exact (MoveEvents_spec s hheap).1
  have hmsane : (advanceMid d2c s).is_global_timer_sane = true := rfl
  have hmslice : (advanceMid d2c s).slice_length = MAX_SLICE_LENGTH := rfl
  obtain ⟨rH, rG, rSane, rS, rDc, rTs, rId, rC, rCnt⟩ :=
    fireLoop_state_spec cbs d2c c2d fuel (advanceMid d2c s) [] hmsane hmheap
  obtain ⟨f1, f2, f3, f4, f5, f6, f7, f8⟩ :=
    advanceFinish_spec c2d (fireLoop cbs d2c c2d fuel (advanceMid d2c s) []).1
  rw [hF]
  refine ⟨?_, ?_, ?_⟩
  · by_cases hq : 0 < (fireLoop cbs d2c c2d fuel (advanceMid d2c s) []).1.event_queue.size
    · rw [f4 hq]
      exact min_le_right _ _
    · have h0 : (fireLoop cbs d2c c2d fuel (advanceMid d2c s) []).1.event_queue.size = 0 := by
        omega
      rw [f5 h0, rS, hmslice]
  · intro hq
    rw [f2] at hq
    refine ⟨?_, ?_, ?_⟩
    · rw [f2, f3]
      exact f4 hq
    · rw [f4 hq]
      have hfront : getE (fireLoop cbs d2c c2d fuel (advanceMid d2c s) []).1.event_queue 0 ∈
          (fireLoop cbs d2c c2d fuel (advanceMid d2c s) []).1.event_queue.toList :=
        getE_mem_toList hq
      have hlt := rC hdone2 _ hfront
      have hlt2 : (fireLoop cbs d2c c2d fuel (advanceMid d2c s) []).1.global_timer <
          (getE (fireLoop cbs d2c c2d fuel (advanceMid d2c s) []).1.event_queue 0).time := by
        rw [rG]
        exact hlt
      have hmax : (0 : Int) < MAX_SLICE_LENGTH := by decide
      exact lt_min (by omega) hmax
    · intro e he
      rw [f2] at he
      rw [f3, rG]
      exact rC hdone2 e he
  · intro hq
    rw [f2] at hq
    rw [f5 hq, rS, hmslice]

/-- Witness for c4_advance_slice: one event at deadline 10, timer 0, loop
exits immediately with the flag set. -/
theorem c4_advance_slice_witness :
    (Advance (fun _ _ _ => []) (fun c => c) (fun c => c) 1
      { event_queue := #[⟨10, 0, 0, "e"⟩], event_fifo_id := 1, ts_queue := [],
        global_timer := 0, slice_length := 20000, downcount := 20000,
        is_global_timer_sane := false, idled_cycles := 0 }).1.slice_length ≤
      MAX_SLICE_LENGTH :=
  (c4_advance_slice (fun _ _ _ => []) (fun c => c) (fun c => c) 1
    { event_queue := #[⟨10, 0, 0, "e"⟩], event_fifo_id := 1, ts_queue := [],
      global_timer := 0, slice_length := 20000, downcount := 20000,
      is_global_timer_sane := false, idled_cycles := 0 } (by decide) (by decide)).1

/-- C5: after RemoveAllEvents(T) no event of type T remains in the heap and
the cross-thread inbox is empty (it was drained into the heap before the
erase, so inbox-resident events are captured too); the surviving queue is a
permutation of the stable filter of the drained queue, so every event of a
different type is retained with its deadline, sequence and userdata
unchanged; and the heap property holds. -/
theorem c5_remove_all (s : SchedState) (ty : String) (hheap : IsHeap s.event_queue) :
    (∀ e ∈ (RemoveAllEvents s ty).event_queue.toList, e.type ≠ ty) ∧
    (RemoveAllEvents s ty).ts_queue = [] ∧
    (RemoveAllEvents s ty).event_queue.toList.Perm
      ((s.event_queue.toList ++ assignSeqs s.event_fifo_id s.ts_queue).filter
        (fun e => e.type != ty)) ∧
    IsHeap (RemoveAllEvents s ty).event_queue := by
  obtain ⟨m1, m2, m3, m4, m5, m6, m7, m8, m9⟩ := MoveEvents_spec s hheap
  obtain ⟨r1, r2, r3⟩ := removeEventQueue_spec (MoveEvents s).event_queue ty
  have hq : (RemoveAllEvents s ty).event_queue
      = removeEventQueue (MoveEvents s).event_queue ty := rfl
  have hts : (RemoveAllEvents s ty).ts_queue = (MoveEvents s).ts_queue := rfl
  refine ⟨?_, ?_, ?_, ?_⟩
  · intro e he
    rw [hq] at he
    have hf := r2.mem_iff.mp he
    have := List.mem_filter.mp hf
    exact bne_iff_ne.mp this.2
  · rw [hts]
    exact m4
  · rw [hq]
    exact r2.trans (m2.filter _)
  · rw [hq]
    exact r3 m1

/-- Witness for c5_remove_all: heap with one "T" and one "U" event and a
"T" event still in the inbox. -/
theorem c5_remove_all_witness :
    (∀ e ∈ (RemoveAllEvents
      { event_queue := #[⟨5, 0, 0, "T"⟩, ⟨6, 1, 0, "U"⟩], event_fifo_id := 2,
        ts_queue := [⟨9, 0, 1, "T"⟩], global_timer := 0, slice_length := 20000,
        downcount := 0, is_global_timer_sane := false, idled_cycles := 0 } "T").event_queue.toList,
      e.type ≠ "T") ∧
    (RemoveAllEvents
      { event_queue := #[⟨5, 0, 0, "T"⟩, ⟨6, 1, 0, "U"⟩], event_fifo_id := 2,
        ts_queue := [⟨9, 0, 1, "T"⟩], global_timer := 0, slice_length := 20000,
        downcount := 0, is_global_timer_sane := false, idled_cycles := 0 } "T").ts_queue
      = [] := by
  have h := c5_remove_all
    { event_queue := #[⟨5, 0, 0, "T"⟩, ⟨6, 1, 0, "U"⟩], event_fifo_id := 2,
      ts_queue := [⟨9, 0, 1, "T"⟩], global_timer := 0, slice_length := 20000,
      downcount := 0, is_global_timer_sane := false, idled_cycles := 0 } "T" (by decide)
  exact ⟨h.1, h.2.1⟩
